import Mathlib

/-!
Verification of the branch-unification layer of `jax._src.lax.control_flow.common`.

The Python module stages each branch of a multi-way control-flow construct into a
jaxpr, deduplicates captured mutable `Ref` constants across branches by object
identity, and pads every branch's constvar interface so all branches share one
ordered constant-argument list.  We embed the data model and the algorithm of
`_initial_style_jaxprs_with_common_consts`, `pad_jaxpr_constvars`,
`_check_tree_and_avals`, `_check_tree` and `_show_diff` shallowly and prove the
specified properties about them.

Modelling conventions:
* Python object identity (`id(c)`) is an explicit `cid : Nat` field.
* `isinstance(c, pe.DynamicJaxprTracer)` is an explicit `isTracer : Bool` field.
* Abstract values are a small inductive; `isinstance(aval, state.AbstractRef)`
  is the `Aval.isRef` discriminator.  The `weak` flag on shaped avals models
  shape metadata that `typematch` ignores, making typematch weaker than
  equality.
* The Python dict `tracer_id_to_canonical_id` is an insertion-ordered
  association list with the operations the source uses (membership test,
  insert-if-absent, lookup).
* Machinery the source calls but that lives outside this module
  (`pe.trace_to_jaxpr_dynamic`, `pe.convert_constvars_jaxpr`,
  `pe.make_jaxpr_effects`, `core.gensym`, `core.typematch`, `util.cache` /
  `util.weakref_lru_cache`, `util.partition_list`) is either taken as an input
  (the staged jaxprs and consts, the effect-derivation function) or modelled
  from the specification, as flagged in each doc comment.
-/

namespace JaxControlFlow

/-- Abstract value descriptor: a plain shaped value (with a metadata flag that
the type-match relation ignores) or a mutable-state reference
(`state.AbstractRef`). -/
inductive Aval where
  | shaped (dim : Nat) (weak : Bool)
  | ref (dim : Nat)
deriving DecidableEq, Repr, Inhabited

/-- Discriminator corresponding to `isinstance(aval, state.AbstractRef)`. -/
def Aval.isRef : Aval → Bool
  | .ref _ => true
  | _ => false

/-- A captured constant produced by staging: `cid` models Python object
identity (`id(c)`), `isTracer` models `isinstance(c, pe.DynamicJaxprTracer)`. -/
structure Const where
  cid : Nat
  isTracer : Bool
  aval : Aval
deriving DecidableEq, Repr

/-- An IR variable with its abstract type. -/
structure Var where
  vid : Nat
  aval : Aval
deriving DecidableEq, Repr, Inhabited

/-- An argument position in an equation or output list: a variable or a
literal. -/
inductive Atom where
  | var (v : Var)
  | lit (n : Nat)
deriving DecidableEq, Repr

/-- Variables referenced by an atom. -/
def Atom.vars : Atom → List Var
  | .var v => [v]
  | .lit _ => []

/-- An equation: an opaque primitive applied to atoms, binding output
variables.  Opaque to this module; only its variable references matter. -/
structure Eqn where
  prim : Nat
  inAtoms : List Atom
  outvars : List Var
deriving DecidableEq, Repr

/-- Effect markers are opaque tags here. -/
abbrev Effects := List Nat

/-- An open program (`core.Jaxpr`): constvars, invars, equations, outputs and
an effect set. -/
structure Jaxpr where
  constvars : List Var
  invars : List Var
  eqns : List Eqn
  outvars : List Atom
  effects : Effects
deriving DecidableEq, Repr, Inhabited

/-- A closed program (`core.ClosedJaxpr`): a jaxpr together with its bound
constant values. -/
structure ClosedJaxpr where
  jaxpr : Jaxpr
  consts : List Const
deriving DecidableEq, Repr

/-- Embedding of `_abstractify` (`core.raise_to_shaped(core.get_aval(x))`):
in this model every constant carries its abstract value. -/
def _abstractify (c : Const) : Aval := c.aval

/-- A constant whose abstract value is an `AbstractRef`. -/
def isRefConst (c : Const) : Bool := (_abstractify c).isRef

/-! ### The identity-keyed canonicalisation table

`tracer_id_to_canonical_id` is a Python dict keyed by `id(c)`.  We embed it as
an insertion-ordered association list, with the three operations the source
performs: membership test, insert (only when absent), lookup. -/

/-- Lookup in the association list modelling the dict (`d[k]` / `k in d`). -/
def lookupId (k : Nat) : List (Nat × Nat) → Option Nat
  | [] => none
  | p :: rest => if p.1 = k then some p.2 else lookupId k rest

/-- Accumulator state threaded through the dedup loop of
`_initial_style_jaxprs_with_common_consts` (lines 136-161). -/
structure DedupAcc where
  canonical_refs : List Const
  tracer_id_to_canonical_id : List (Nat × Nat)
  canonical_ref_avals : List Aval
deriving DecidableEq, Repr

/-- The per-branch result of the dedup loop body. -/
structure BranchDedup where
  acc : DedupAcc
  ref_indices : List Nat
  nonref_consts : List Const
  nonref_const_avals : List Aval
deriving DecidableEq, Repr

/-- The body of `if tracer_id not in tracer_id_to_canonical_id:` (source lines
149-153): when the identity is unseen, assign it the next canonical index,
append the constant to the canonical list and its aval to the canonical aval
list; otherwise leave the accumulator unchanged. -/
def dedupInsert (g : DedupAcc) (c : Const) : DedupAcc :=
  if (lookupId c.cid g.tracer_id_to_canonical_id).isNone then
    { canonical_refs := g.canonical_refs ++ [c]
      tracer_id_to_canonical_id :=
        g.tracer_id_to_canonical_id ++ [(c.cid, g.canonical_refs.length)]
      canonical_ref_avals := g.canonical_ref_avals ++ [_abstractify c] }
  else g

/-- Embedding of the inner loop `for c, aval in zip(consts, consts_avals)` of
the dedup pass: refs are deduplicated by identity into the accumulator, and the
branch records the canonical index of each of its refs; non-ref constants and
their avals are collected in order. -/
def processBranch (g : DedupAcc) : List Const → BranchDedup
  | [] => ⟨g, [], [], []⟩
  | c :: cs =>
    let aval := _abstractify c
    if aval.isRef then
      let tracer_id := c.cid
      let g1 := dedupInsert g c
      let canonical_id := (lookupId tracer_id g1.tracer_id_to_canonical_id).getD 0
      let r := processBranch g1 cs
      ⟨r.acc, canonical_id :: r.ref_indices, r.nonref_consts, r.nonref_const_avals⟩
    else
      let r := processBranch g cs
      ⟨r.acc, r.ref_indices, c :: r.nonref_consts, aval :: r.nonref_const_avals⟩

/-- The whole-algorithm result of the dedup pass over all branches. -/
structure DedupOut where
  acc : DedupAcc
  canonical_ref_indices : List (List Nat)
  all_nonref_consts : List (List Const)
  all_nonref_const_avals : List (List Aval)
deriving DecidableEq, Repr

/-- Embedding of the outer loop `for consts, consts_avals in zip(all_consts,
all_const_avals)` of the dedup pass. -/
def dedupBranches (g : DedupAcc) : List (List Const) → DedupOut
  | [] => ⟨g, [], [], []⟩
  | cs :: rest =>
    let b := processBranch g cs
    let r := dedupBranches b.acc rest
    ⟨r.acc, b.ref_indices :: r.canonical_ref_indices,
      b.nonref_consts :: r.all_nonref_consts,
      b.nonref_const_avals :: r.all_nonref_const_avals⟩

/-- The dedup pass run from the empty state, as the source does. -/
def dedupResult (all_consts : List (List Const)) : DedupOut :=
  dedupBranches ⟨[], [], []⟩ all_consts

/-! ### Fresh-variable generation and list utilities -/

/-- Every variable mentioned anywhere in a jaxpr (binders and references). -/
def Jaxpr.allVars (j : Jaxpr) : List Var :=
  j.constvars ++ j.invars ++
    (j.eqns.flatMap fun e => e.outvars ++ e.inAtoms.flatMap Atom.vars) ++
    j.outvars.flatMap Atom.vars

/-- Largest variable id occurring in a family of jaxprs. -/
def maxVidAll (jaxprs : List Jaxpr) : Nat :=
  ((jaxprs.flatMap Jaxpr.allVars).map Var.vid).foldr Nat.max 0

/-- Modelled from the spec: `core.gensym` (outside src/) produces variables
guaranteed not to collide with any existing binding in the given jaxpr family
(spec 4.7, `fresh_variable`).  We model the generator as sequential ids
starting strictly above every id occurring in the family. -/
def freshVarsFrom (base : Nat) : List Aval → List Var
  | [] => []
  | a :: rest => ⟨base, a⟩ :: freshVarsFrom (base + 1) rest

/-- Fresh variables for a nested aval family, numbering blocks sequentially so
no two placeholders collide. -/
def freshVarsNested (base : Nat) : List (List Aval) → List (List Var)
  | [] => []
  | avals :: rest => freshVarsFrom base avals :: freshVarsNested (base + avals.length) rest

/-- Modelled from the spec: `util.partition_list` (outside src/) splits a list
by a parallel boolean list, preserving order in both outputs (spec 4.7,
`partition_by_predicate`): false-flagged items land in the first output,
true-flagged in the second. -/
def partition_list {α : Type} : List Bool → List α → List α × List α
  | b :: bs, x :: l =>
    let r := partition_list bs l
    if b then (r.1, x :: r.2) else (x :: r.1, r.2)
  | _, _ => ([], [])

/-- Embedding of the loop `for canonical_id, ref_var in zip(...): padded[canonical_id] = ref_var`
in `pad_jaxpr_constvars`: successive in-place writes into the placeholder
list. -/
def writeCanonical (padded : List Var) : List (Nat × Var) → List Var
  | [] => padded
  | p :: rest => writeCanonical (padded.set p.1 p.2) rest

/-! ### The padding rewrite and the unifier pipeline

The staged jaxprs and their captured constants are inputs here: in the source
they come from `_initial_style_open_jaxpr`, whose tracing engine
(`pe.trace_to_jaxpr_dynamic`) is outside this module.  The effect-derivation
function `pe.make_jaxpr_effects` is likewise external, so the embedding takes
it as an explicit argument `mkEff`, applied exactly where the source applies
it. -/

/-- Embedding of `pad_jaxpr_constvars(i, jaxpr)` (source lines 167-181), with
the closure's captured data (`unused_ref_const_vars`, `unused_const_vars`,
`canonical_ref_indices`) passed explicitly: partition the branch's constvars
into refs and non-refs, overwrite the canonical placeholder list with the
branch's own ref variables at their canonical indices, concatenate the four
sections, and recompute the effect set from the new bindings. -/
def pad_jaxpr_constvars (mkEff : List Var → List Var → List Atom → List Eqn → Effects)
    (unused_ref_const_vars : List Var) (unused_const_vars : List (List Var))
    (canonical_ref_indices : List (List Nat)) (i : Nat) (jaxpr : Jaxpr) : Jaxpr :=
  let is_ref := jaxpr.constvars.map (fun v => v.aval.isRef)
  let parts := partition_list is_ref jaxpr.constvars
  let nonref_constvars := parts.1
  let ref_constvars := parts.2
  let padded_ref_constvars :=
    writeCanonical unused_ref_const_vars
      ((canonical_ref_indices.getD i []).zip ref_constvars)
  let const_pre := (unused_const_vars.take i).flatten
  let const_suf := (unused_const_vars.drop (i + 1)).flatten
  let constvars := padded_ref_constvars ++ const_pre ++ nonref_constvars ++ const_suf
  let jaxpr1 := { jaxpr with constvars := constvars }
  { jaxpr1 with effects := mkEff jaxpr1.constvars jaxpr1.invars jaxpr1.outvars jaxpr1.eqns }

/-- Modelled from the spec: `pe.convert_constvars_jaxpr` (outside src/) is the
Program Closer's conversion making every former captured constant an ordinary
input (spec 4.3 and step 9: "all constants are now ordinary inputs bound
externally by the caller"). -/
def convert_constvars_jaxpr (j : Jaxpr) : Jaxpr :=
  { j with constvars := [], invars := j.constvars ++ j.invars }

/-- The placeholder variables for the canonical ref slots
(`unused_ref_const_vars`, source line 164). -/
def unusedRefConstVars (jaxprs : List Jaxpr) (all_consts : List (List Const)) : List Var :=
  freshVarsFrom (maxVidAll jaxprs + 1) (dedupResult all_consts).acc.canonical_ref_avals

/-- The placeholder variables for each branch's plain constants
(`unused_const_vars`, source lines 165-166). -/
def unusedConstVars (jaxprs : List Jaxpr) (all_consts : List (List Const)) : List (List Var) :=
  freshVarsNested (maxVidAll jaxprs + 1 + (dedupResult all_consts).acc.canonical_ref_avals.length)
    (dedupResult all_consts).all_nonref_const_avals

/-- All branch jaxprs after the padding rewrite (source line 184). -/
def paddedJaxprs (mkEff : List Var → List Var → List Atom → List Eqn → Effects)
    (jaxprs : List Jaxpr) (all_consts : List (List Const)) : List Jaxpr :=
  (List.range jaxprs.length).map fun i =>
    pad_jaxpr_constvars mkEff (unusedRefConstVars jaxprs all_consts)
      (unusedConstVars jaxprs all_consts)
      (dedupResult all_consts).canonical_ref_indices i (jaxprs.getD i default)

/-- The final unified constant list (source line 183): canonical refs first,
then each branch's plain constants, branch by branch. -/
def allConstsOut (all_consts : List (List Const)) : List Const :=
  (dedupResult all_consts).acc.canonical_refs ++
    (dedupResult all_consts).all_nonref_consts.flatten

/-- Embedding of the tail of `_initial_style_jaxprs_with_common_consts`
(source lines 136-187), taking the staged jaxprs and captured constants as
input: dedup refs, pad every branch, close each padded jaxpr with an empty
consts list, and return the closed jaxprs with the unified constant list. -/
def initial_style_jaxprs_with_common_consts
    (mkEff : List Var → List Var → List Atom → List Eqn → Effects)
    (jaxprs : List Jaxpr) (all_consts : List (List Const)) :
    List ClosedJaxpr × List Const :=
  ((paddedJaxprs mkEff jaxprs all_consts).map
      (fun j => ⟨convert_constvars_jaxpr j, []⟩),
    allConstsOut all_consts)

/-- The assertion guard of source lines 86-89: every captured constant whose
abstract value is an `AbstractRef` must be a `DynamicJaxprTracer`. -/
def refConstsAreTracers (all_consts : List (List Const)) : Bool :=
  all_consts.all fun consts =>
    consts.all fun c => !(_abstractify c).isRef || c.isTracer

/-- Result of running the unifier behind its assertion guard. -/
inductive UnifyResult where
  | ok (progs : List ClosedJaxpr) (consts : List Const)
  | assertionFailed
deriving DecidableEq, Repr

/-- The unifier including the `assert isinstance(c, pe.DynamicJaxprTracer)`
guard: a non-tracer ref constant aborts with an assertion failure before any
deduplication happens. -/
def initial_style_jaxprs_checked
    (mkEff : List Var → List Var → List Atom → List Eqn → Effects)
    (jaxprs : List Jaxpr) (all_consts : List (List Const)) : UnifyResult :=
  if refConstsAreTracers all_consts then
    let r := initial_style_jaxprs_with_common_consts mkEff jaxprs all_consts
    .ok r.1 r.2
  else .assertionFailed

/-! ### Diagnostics: `_check_tree_and_avals`, `_check_tree`, `_show_diff`

Pytree structure descriptors are modelled as finite-arity trees (arity up to
three suffices to express every structural situation the claims mention: zero,
one, exactly two, or more than two children).  Error messages are modelled as
structured data instead of strings: the `TypeError` raised by
`_check_tree_and_avals` carries the per-leaf diff that `tree_map(_show_diff,
...)` renders, and every error constructor is classified by the kind of Python
exception it models. -/

/-- A pytree structure descriptor with children arity up to three. -/
inductive PTree where
  | leaf
  | node0
  | node1 (c1 : PTree)
  | node2 (c1 c2 : PTree)
  | node3 (c1 c2 c3 : PTree)
deriving DecidableEq, Repr

/-- The children of a structure node (`tree.children()`); a leaf has none. -/
def PTree.children : PTree → List PTree
  | .leaf => []
  | .node0 => []
  | .node1 c1 => [c1]
  | .node2 c1 c2 => [c1, c2]
  | .node3 c1 c2 c3 => [c1, c2, c3]

/-- Modelled from the spec: `core.typematch` (outside src/) is the "type
match" relation weaker than equality (spec 4.1: it permits
compatible-but-not-identical shape metadata).  Here it ignores the `weak`
metadata flag. -/
def typematch : Aval → Aval → Bool
  | .shaped d _, .shaped e _ => d == e
  | .ref d, .ref e => d == e
  | _, _ => false

/-- One leaf of the rendered diff: either the common value or a clearly marked
difference, as `_show_diff` prints. -/
inductive DiffEntry where
  | same (a : Aval)
  | different (a b : Aval)
deriving DecidableEq, Repr

/-- Embedding of `_show_diff`: the common value when the two avals typematch,
otherwise a marked "DIFFERENT a vs. b" entry. -/
def _show_diff (array1 array2 : Aval) : DiffEntry :=
  if typematch array1 array2 then .same array1 else .different array1 array2

/-- The errors this module's diagnostics raise, as structured data. -/
inductive CheckError where
  | structureMismatch (t1 t2 : PTree)
  | typeMismatch (diff : List DiffEntry)
  | treeMismatch (t1 t2 : PTree)
  | auxShape (t : PTree)
  | assertionFailed
deriving DecidableEq, Repr

/-- The kind of Python exception an error models. -/
inductive ErrKind where
  | typeError
  | valueError
  | assertionError
deriving DecidableEq, Repr

/-- Classification of each error by its Python exception class. -/
def CheckError.kind : CheckError → ErrKind
  | .structureMismatch _ _ => .typeError
  | .typeMismatch _ => .typeError
  | .treeMismatch _ _ => .typeError
  | .auxShape _ => .valueError
  | .assertionFailed => .assertionError

/-- Result of a diagnostic check. -/
inductive CheckResult where
  | ok
  | err (e : CheckError)
deriving DecidableEq, Repr

/-- Embedding of `_check_tree_and_avals` (source lines 189-202): raise a
TypeError when the two structures differ; otherwise raise a TypeError carrying
the per-leaf diff when some corresponding pair of avals fails `typematch`;
otherwise succeed.  The diff is `tree_map(_show_diff, ...)` over the two
unflattened trees, i.e. `_show_diff` applied leafwise in order. -/
def _check_tree_and_avals (tree1 : PTree) (avals1 : List Aval)
    (tree2 : PTree) (avals2 : List Aval) : CheckResult :=
  if tree1 ≠ tree2 then
    .err (.structureMismatch tree1 tree2)
  else if !((avals1.zip avals2).all fun p => typematch p.1 p.2) then
    .err (.typeMismatch ((avals1.zip avals2).map fun p => _show_diff p.1 p.2))
  else .ok

/-- Embedding of `_check_tree` (source lines 204-220): with `has_aux` set, the
actual structure must have exactly two children and its first child becomes
the structure to compare (a ValueError otherwise, raised before any
comparison); then a TypeError when the (possibly extracted) structure differs
from the expected one. -/
def _check_tree (actual_tree expected_tree : PTree) (has_aux : Bool) : CheckResult :=
  if has_aux then
    let actual_tree_children := actual_tree.children
    if h2 : actual_tree_children.length = 2 then
      let actual := actual_tree_children.head (by
        intro hnil
        rw [hnil] at h2
        exact absurd h2 (by decide))
      if actual ≠ expected_tree then .err (.treeMismatch actual expected_tree) else .ok
    else .err (.auxShape actual_tree)
  else
    if actual_tree ≠ expected_tree then
      .err (.treeMismatch actual_tree expected_tree)
    else .ok

/-! ### The memoization cache

Modelled from the spec: `util.weakref_lru_cache` and `util.cache` (both
outside src/) implement the Memoization Cache of spec 4.4: an identity-keyed,
weakly referenced map from `(callable identity, input structure, abstract
input types, label)` to the computed value.  We model the cache state as an
association list, `get_or_compute` as the decorator's behaviour, and weak
eviction as removal of every entry whose keyed callable has become
unreachable (given by its identity being in a dead set). -/

/-- A cache key: callable identity plus the equality-compared fields. -/
structure CacheKey where
  fun_id : Nat
  in_tree : PTree
  in_avals : List Aval
  label : Option Nat
deriving DecidableEq, Repr

/-- The cache contents. -/
abbrev CacheState (V : Type) := List (CacheKey × V)

/-- Lookup of a key in the cache. -/
def cacheLookup {V : Type} (k : CacheKey) : CacheState V → Option V
  | [] => none
  | p :: rest => if p.1 = k then some p.2 else cacheLookup k rest

/-- Modelled from the spec: `get_or_compute(key, compute)` (spec 4.4) returns
the stored value when present, otherwise runs `compute`, stores and returns
its result.  The boolean reports whether `compute` ran. -/
def get_or_compute {V : Type} (st : CacheState V) (k : CacheKey) (compute : Unit → V) :
    V × CacheState V × Bool :=
  match cacheLookup k st with
  | some v => (v, st, false)
  | none =>
    let v := compute ()
    (v, st ++ [(k, v)], true)

/-- Modelled from the spec: weak-identity eviction (spec 4.4) releases every
entry whose keyed callable identity has become unreachable. -/
def evictDead {V : Type} (dead : List Nat) (st : CacheState V) : CacheState V :=
  st.filter fun p => decide (p.1.fun_id ∉ dead)

/-! ### Specification-side characterisations

These definitions restate, in direct recursive form, what the claims say the
algorithm computes; the theorems below connect them to the embedded source. -/

/-- Keep the first occurrence of each ref identity: the canonical-ref list the
dedup pass is claimed to build (first-seen order, one entry per identity). -/
def keepFirstRefs (seen : List Nat) : List Const → List Const
  | [] => []
  | c :: cs =>
    if c.cid ∈ seen then keepFirstRefs seen cs
    else c :: keepFirstRefs (c.cid :: seen) cs

/-- The canonical index of a ref identity: its position in the canonical-ref
list. -/
def canonIdx (refs : List Const) (k : Nat) : Nat :=
  List.indexOf k (refs.map Const.cid)

/-- The resource-handle constants of a branch, in capture order. -/
def refConsts (cs : List Const) : List Const := cs.filter isRefConst

/-- The plain (non-ref) constants of a branch, in capture order. -/
def plainConsts (cs : List Const) : List Const :=
  cs.filter fun c => !isRefConst c

/-- The number of canonical resource-handle slots of a unification call. -/
def numCanonicalRefs (all_consts : List (List Const)) : Nat :=
  (dedupResult all_consts).acc.canonical_refs.length

/-- Total number of plain constants over all branches. -/
def totalPlainConsts (all_consts : List (List Const)) : Nat :=
  (all_consts.map fun cs => (plainConsts cs).length).sum

/-! ### Well-formedness predicates over jaxprs -/

/-- Scope check from an initial environment: every variable an equation reads
is bound by the environment or a prior equation's outputs, and so is every
output atom. -/
def wfFrom (env : List Var) : List Eqn → List Atom → Bool
  | [], outs => outs.all fun a => a.vars.all fun v => decide (v ∈ env)
  | e :: es, outs =>
    (e.inAtoms.all fun a => a.vars.all fun v => decide (v ∈ env)) &&
      wfFrom (env ++ e.outvars) es outs

/-- A jaxpr has no free variables: every reference is bound by constvars,
invars or a prior equation's outputs. -/
def Jaxpr.noFreeVars (j : Jaxpr) : Bool :=
  wfFrom (j.constvars ++ j.invars) j.eqns j.outvars

/-- The binding occurrences of a jaxpr, in binding order. -/
def Jaxpr.binders (j : Jaxpr) : List Var :=
  j.constvars ++ j.invars ++ j.eqns.flatMap Eqn.outvars

/-- Correspondence between a staged jaxpr's constvars and its captured
constants (the Stager contract, spec 4.2: the captured constants come in a
stable order matching `constvars`): position by position, the constvar's aval
is the constant's abstract value. -/
abbrev Corresponds (j : Jaxpr) (cs : List Const) : Prop :=
  j.constvars.map Var.aval = cs.map _abstractify

/-! ### Proof-side devices for the dedup invariant -/

/-- The association list a run of the dedup loop builds is the enumeration of
the canonical-ref list: key `cid`, value its position. -/
def enumTableFrom (i : Nat) : List Const → List (Nat × Nat)
  | [] => []
  | c :: cs => (c.cid, i) :: enumTableFrom (i + 1) cs

/-- Invariant of the dedup accumulator: canonical identities are distinct, the
dict is exactly the enumeration of the canonical-ref list, and the canonical
aval list tracks the canonical refs. -/
def GoodAcc (g : DedupAcc) : Prop :=
  (g.canonical_refs.map Const.cid).Nodup ∧
    g.tracer_id_to_canonical_id = enumTableFrom 0 g.canonical_refs ∧
    g.canonical_ref_avals = g.canonical_refs.map _abstractify

/-! ### Lemmas: the canonicalisation table -/

lemma enumTableFrom_append (i : Nat) (l : List Const) (c : Const) :
    enumTableFrom i (l ++ [c]) = enumTableFrom i l ++ [(c.cid, i + l.length)] := by
  induction l generalizing i with
  | nil => simp [enumTableFrom]
  | cons d l ih =>
    have h : i + 1 + l.length = i + (l.length + 1) := by omega
    simp only [List.cons_append, List.append_eq, enumTableFrom, List.length_cons, ih, h]

lemma lookup_enumTableFrom (k i : Nat) (refs : List Const) :
    lookupId k (enumTableFrom i refs) =
      if k ∈ refs.map Const.cid then
        some (i + List.indexOf k (refs.map Const.cid))
      else none := by
  induction refs generalizing i with
  | nil => simp [enumTableFrom, lookupId]
  | cons c cs ih =>
    simp only [enumTableFrom, lookupId, List.map_cons]
    by_cases h : c.cid = k
    · subst h
      simp [List.indexOf_cons_self]
    · rw [if_neg h, ih (i + 1)]
      by_cases hm : k ∈ cs.map Const.cid
      · rw [if_pos hm, if_pos (List.mem_cons.mpr (Or.inr hm)),
          List.indexOf_cons_ne _ h]
        congr 1
        omega
      · rw [if_neg hm, if_neg (by
          intro hx
          rcases List.mem_cons.mp hx with he | he
          · exact h he.symm
          · exact hm he)]

lemma lookupId_of_mem {g : DedupAcc} (hG : GoodAcc g) {k : Nat}
    (h : k ∈ g.canonical_refs.map Const.cid) :
    lookupId k g.tracer_id_to_canonical_id = some (canonIdx g.canonical_refs k) := by
  rw [hG.2.1, lookup_enumTableFrom, if_pos h]
  simp [canonIdx]

lemma lookupId_of_not_mem {g : DedupAcc} (hG : GoodAcc g) {k : Nat}
    (h : k ∉ g.canonical_refs.map Const.cid) :
    lookupId k g.tracer_id_to_canonical_id = none := by
  rw [hG.2.1, lookup_enumTableFrom, if_neg h]

/-! ### Lemmas: keep-first deduplication -/

lemma keepFirstRefs_congr {seen1 seen2 : List Nat} (l : List Const)
    (h : ∀ k, k ∈ seen1 ↔ k ∈ seen2) :
    keepFirstRefs seen1 l = keepFirstRefs seen2 l := by
  induction l generalizing seen1 seen2 with
  | nil => rfl
  | cons c cs ih =>
    simp only [keepFirstRefs]
    by_cases hc : c.cid ∈ seen1
    · rw [if_pos hc, if_pos ((h _).mp hc)]
      exact ih h
    · rw [if_neg hc, if_neg (fun hx => hc ((h _).mpr hx))]
      congr 1
      exact ih fun k => by
        simp only [List.mem_cons]
        exact or_congr Iff.rfl (h k)

lemma keepFirstRefs_append (seen : List Nat) (l1 l2 : List Const) :
    keepFirstRefs seen (l1 ++ l2) =
      keepFirstRefs seen l1 ++
        keepFirstRefs (seen ++ (keepFirstRefs seen l1).map Const.cid) l2 := by
  induction l1 generalizing seen with
  | nil => simp [keepFirstRefs]
  | cons c cs ih =>
    simp only [List.cons_append, List.append_eq, keepFirstRefs]
    by_cases hc : c.cid ∈ seen
    · rw [if_pos hc, if_pos hc, ih]
    · rw [if_neg hc, if_neg hc]
      simp only [List.map_cons, List.cons_append]
      rw [ih (c.cid :: seen)]
      congr 2
      exact keepFirstRefs_congr _ fun k => by
        simp only [List.mem_cons, List.mem_append]
        tauto

lemma cid_mem_keepFirstRefs {c : Const} {l : List Const} (seen : List Nat) (hc : c ∈ l) :
    c.cid ∈ seen ∨ c.cid ∈ (keepFirstRefs seen l).map Const.cid := by
  induction l generalizing seen with
  | nil => cases hc
  | cons d ds ih =>
    rcases List.mem_cons.mp hc with rfl | h2
    · by_cases hd : c.cid ∈ seen
      · exact .inl hd
      · right
        simp [keepFirstRefs, if_neg hd]
    · simp only [keepFirstRefs]
      by_cases hd : d.cid ∈ seen
      · rw [if_pos hd]
        exact ih seen h2
      · rw [if_neg hd]
        rcases ih (d.cid :: seen) h2 with h3 | h3
        · rcases List.mem_cons.mp h3 with he | he
          · right
            simp [he]
          · exact .inl he
        · right
          simp only [List.map_cons, List.mem_cons]
          exact .inr h3

/-! ### Lemmas: the dedup accumulator invariant -/

lemma dedupInsert_of_mem {g : DedupAcc} (hG : GoodAcc g) {c : Const}
    (h : c.cid ∈ g.canonical_refs.map Const.cid) : dedupInsert g c = g := by
  simp [dedupInsert, lookupId_of_mem hG h]

lemma dedupInsert_of_not_mem {g : DedupAcc} (hG : GoodAcc g) {c : Const}
    (h : c.cid ∉ g.canonical_refs.map Const.cid) :
    dedupInsert g c =
      { canonical_refs := g.canonical_refs ++ [c]
        tracer_id_to_canonical_id :=
          g.tracer_id_to_canonical_id ++ [(c.cid, g.canonical_refs.length)]
        canonical_ref_avals := g.canonical_ref_avals ++ [_abstractify c] } := by
  simp [dedupInsert, lookupId_of_not_mem hG h]

lemma GoodAcc_insert {g : DedupAcc} (hG : GoodAcc g) {c : Const}
    (h : c.cid ∉ g.canonical_refs.map Const.cid) : GoodAcc (dedupInsert g c) := by
  rw [dedupInsert_of_not_mem hG h]
  refine ⟨?_, ?_, ?_⟩
  · simp only [List.map_append, List.map_cons, List.map_nil, List.nodup_append]
    exact ⟨hG.1, List.nodup_singleton _, by simpa using fun hx => h hx⟩
  · simp [hG.2.1, enumTableFrom_append]
  · simp [hG.2.2]

lemma processBranch_spec (cs : List Const) (g : DedupAcc) (hG : GoodAcc g) :
    (processBranch g cs).acc.canonical_refs
        = g.canonical_refs ++
            keepFirstRefs (g.canonical_refs.map Const.cid) (refConsts cs)
    ∧ GoodAcc (processBranch g cs).acc
    ∧ (processBranch g cs).nonref_consts = plainConsts cs
    ∧ (processBranch g cs).nonref_const_avals = (plainConsts cs).map _abstractify
    ∧ (processBranch g cs).ref_indices
        = (refConsts cs).map
            (fun c => canonIdx (processBranch g cs).acc.canonical_refs c.cid) := by
  induction cs generalizing g with
  | nil =>
    refine ⟨by simp [processBranch, keepFirstRefs, refConsts], hG, ?_, ?_, ?_⟩ <;>
      simp [processBranch, plainConsts, refConsts]
  | cons c cs ih =>
    cases href : isRefConst c with
    | false =>
      have hstep : processBranch g (c :: cs) =
          ⟨(processBranch g cs).acc, (processBranch g cs).ref_indices,
            c :: (processBranch g cs).nonref_consts,
            _abstractify c :: (processBranch g cs).nonref_const_avals⟩ := by
        have hr : (_abstractify c).isRef = false := href
        simp [processBranch, hr]
      obtain ⟨ih1, ih2, ih3, ih4, ih5⟩ := ih g hG
      have hfc : refConsts (c :: cs) = refConsts cs := by
        simp [refConsts, List.filter_cons, href]
      rw [hstep, hfc]
      refine ⟨ih1, ih2, ?_, ?_, ih5⟩
      · simp [plainConsts, List.filter_cons, href, ih3]
      · simp [plainConsts, List.filter_cons, href, ih4]
    | true =>
      have hr : (_abstractify c).isRef = true := href
      have hstep : processBranch g (c :: cs) =
          ⟨(processBranch (dedupInsert g c) cs).acc,
            (lookupId c.cid (dedupInsert g c).tracer_id_to_canonical_id).getD 0 ::
              (processBranch (dedupInsert g c) cs).ref_indices,
            (processBranch (dedupInsert g c) cs).nonref_consts,
            (processBranch (dedupInsert g c) cs).nonref_const_avals⟩ := by
        simp [processBranch, hr]
      by_cases hmem : c.cid ∈ g.canonical_refs.map Const.cid
      · have hg1 : dedupInsert g c = g := dedupInsert_of_mem hG hmem
        obtain ⟨ih1, ih2, ih3, ih4, ih5⟩ := ih g hG
        rw [hstep, hg1]
        have hfc : refConsts (c :: cs) = c :: refConsts cs := by
          simp [refConsts, List.filter_cons, href]
        have hkeep : keepFirstRefs (g.canonical_refs.map Const.cid) (c :: refConsts cs)
            = keepFirstRefs (g.canonical_refs.map Const.cid) (refConsts cs) := by
          simp [keepFirstRefs, hmem]
        refine ⟨by simpa [hfc, hkeep] using ih1, ih2, ?_, ?_, ?_⟩
        · simpa [plainConsts, List.filter_cons, href] using ih3
        · simpa [plainConsts, List.filter_cons, href] using ih4
        · rw [hfc, List.map_cons]
          refine congrArg₂ _ ?_ ih5
          rw [lookupId_of_mem hG hmem, Option.getD_some, ih1, canonIdx, canonIdx,
            List.map_append, List.indexOf_append_of_mem hmem]
      · have hG1 : GoodAcc (dedupInsert g c) := GoodAcc_insert hG hmem
        have hg1 : dedupInsert g c =
            { canonical_refs := g.canonical_refs ++ [c]
              tracer_id_to_canonical_id :=
                g.tracer_id_to_canonical_id ++ [(c.cid, g.canonical_refs.length)]
              canonical_ref_avals := g.canonical_ref_avals ++ [_abstractify c] } :=
          dedupInsert_of_not_mem hG hmem
        have hmem1 : c.cid ∈ (dedupInsert g c).canonical_refs.map Const.cid := by
          rw [hg1]
          simp
        obtain ⟨ih1, ih2, ih3, ih4, ih5⟩ := ih (dedupInsert g c) hG1
        rw [hstep]
        have hfc : refConsts (c :: cs) = c :: refConsts cs := by
          simp [refConsts, List.filter_cons, href]
        refine ⟨?_, ih2, ?_, ?_, ?_⟩
        · rw [ih1, hg1, hfc]
          simp only [keepFirstRefs, hmem, if_neg hmem]
          rw [List.append_assoc]
          refine congrArg _ ?_
          simp only [List.cons_append, List.nil_append]
          refine congrArg _ ?_
          refine keepFirstRefs_congr _ fun k => by
            simp only [List.map_append, List.map_cons, List.map_nil, List.mem_append,
              List.mem_cons, List.mem_singleton, List.not_mem_nil, or_false]
            tauto
        · simpa [plainConsts, List.filter_cons, href] using ih3
        · simpa [plainConsts, List.filter_cons, href] using ih4
        · rw [hfc, List.map_cons]
          refine congrArg₂ _ ?_ ih5
          rw [lookupId_of_mem hG1 hmem1, Option.getD_some, ih1, canonIdx, canonIdx,
            List.map_append, List.indexOf_append_of_mem hmem1]

lemma canonIdx_append {refs ext : List Const} {k : Nat} (h : k ∈ refs.map Const.cid) :
    canonIdx (refs ++ ext) k = canonIdx refs k := by
  simp only [canonIdx, List.map_append]
  exact List.indexOf_append_of_mem h

lemma dedupBranches_spec (branches : List (List Const)) (g : DedupAcc) (hG : GoodAcc g) :
    (dedupBranches g branches).acc.canonical_refs
        = g.canonical_refs ++
            keepFirstRefs (g.canonical_refs.map Const.cid) (refConsts branches.flatten)
    ∧ GoodAcc (dedupBranches g branches).acc
    ∧ (dedupBranches g branches).all_nonref_consts = branches.map plainConsts
    ∧ (dedupBranches g branches).all_nonref_const_avals
        = branches.map (fun cs => (plainConsts cs).map _abstractify)
    ∧ (dedupBranches g branches).canonical_ref_indices
        = branches.map (fun cs => (refConsts cs).map
            (fun c => canonIdx (dedupBranches g branches).acc.canonical_refs c.cid)) := by
  induction branches generalizing g with
  | nil =>
    refine ⟨by simp [dedupBranches, keepFirstRefs, refConsts], hG, ?_, ?_, ?_⟩ <;>
      simp [dedupBranches]
  | cons cs rest ih =>
    have hstep : dedupBranches g (cs :: rest) =
        ⟨(dedupBranches (processBranch g cs).acc rest).acc,
          (processBranch g cs).ref_indices ::
            (dedupBranches (processBranch g cs).acc rest).canonical_ref_indices,
          (processBranch g cs).nonref_consts ::
            (dedupBranches (processBranch g cs).acc rest).all_nonref_consts,
          (processBranch g cs).nonref_const_avals ::
            (dedupBranches (processBranch g cs).acc rest).all_nonref_const_avals⟩ := by
      simp [dedupBranches]
    obtain ⟨pb1, pb2, pb3, pb4, pb5⟩ := processBranch_spec cs g hG
    obtain ⟨ih1, ih2, ih3, ih4, ih5⟩ := ih (processBranch g cs).acc pb2
    have hacc_cids : (processBranch g cs).acc.canonical_refs.map Const.cid
        = g.canonical_refs.map Const.cid ++
            (keepFirstRefs (g.canonical_refs.map Const.cid) (refConsts cs)).map Const.cid := by
      rw [pb1, List.map_append]
    have hmemb : ∀ c ∈ refConsts cs,
        c.cid ∈ (processBranch g cs).acc.canonical_refs.map Const.cid := by
      intro c hc
      rw [hacc_cids]
      rcases cid_mem_keepFirstRefs (g.canonical_refs.map Const.cid) hc with h | h
      · exact List.mem_append.mpr (Or.inl h)
      · exact List.mem_append.mpr (Or.inr h)
    rw [hstep]
    refine ⟨?_, ih2, ?_, ?_, ?_⟩
    · rw [ih1, pb1, List.flatten_cons]
      have hsplit : refConsts (cs ++ rest.flatten)
          = refConsts cs ++ refConsts rest.flatten := by
        simp [refConsts, List.filter_append]
      rw [hsplit, keepFirstRefs_append, List.append_assoc]
      refine congrArg _ (congrArg _ ?_)
      refine keepFirstRefs_congr _ fun k => by rw [List.map_append]
    · simp [ih3, pb3]
    · simp [ih4, pb4]
    · rw [List.map_cons]
      refine congrArg₂ _ ?_ ih5
      rw [pb5]
      refine List.map_congr_left fun c hc => ?_
      rw [ih1, canonIdx_append (hmemb c hc)]

lemma GoodAcc_empty : GoodAcc ⟨[], [], []⟩ :=
  ⟨List.nodup_nil, rfl, rfl⟩

lemma getElem?_canonIdx {refs : List Const} {k : Nat} (h : k ∈ refs.map Const.cid) :
    (refs.map Const.cid)[canonIdx refs k]? = some k := by
  have hlt : canonIdx refs k < (refs.map Const.cid).length :=
    List.indexOf_lt_length.mpr h
  rw [List.getElem?_eq_getElem hlt]
  exact congrArg some (List.indexOf_get hlt)

lemma dedupResult_spec (all_consts : List (List Const)) :
    (dedupResult all_consts).acc.canonical_refs
        = keepFirstRefs [] (refConsts all_consts.flatten)
    ∧ GoodAcc (dedupResult all_consts).acc
    ∧ (dedupResult all_consts).all_nonref_consts = all_consts.map plainConsts
    ∧ (dedupResult all_consts).all_nonref_const_avals
        = all_consts.map (fun cs => (plainConsts cs).map _abstractify)
    ∧ (dedupResult all_consts).canonical_ref_indices
        = all_consts.map (fun cs => (refConsts cs).map
            (fun c => canonIdx (dedupResult all_consts).acc.canonical_refs c.cid)) := by
  obtain ⟨h1, h2, h3, h4, h5⟩ := dedupBranches_spec all_consts ⟨[], [], []⟩ GoodAcc_empty
  exact ⟨by simpa using h1, h2, h3, h4, h5⟩

lemma cid_mem_canonical {all_consts : List (List Const)} {c : Const}
    (hc : c ∈ refConsts all_consts.flatten) :
    c.cid ∈ (dedupResult all_consts).acc.canonical_refs.map Const.cid := by
  rw [(dedupResult_spec all_consts).1]
  rcases cid_mem_keepFirstRefs [] hc with h | h
  · cases h
  · exact h

/-- Claim C1: over one unification call, captured `Ref` constants are
deduplicated by object identity: the canonical-ref list keeps exactly the
first occurrence of each identity (iterating branches in order, then each
branch's constants in order, so the first time an identity is seen it gets the
next index), canonical identities are pairwise distinct (exactly one slot per
identity), each branch's recorded indices are exactly the canonical positions
of its own refs' identities, and every occurrence's index points at the slot
holding its identity. -/
theorem dedup_refs_by_identity (all_consts : List (List Const)) :
    (dedupResult all_consts).acc.canonical_refs
        = keepFirstRefs [] (refConsts all_consts.flatten)
    ∧ ((dedupResult all_consts).acc.canonical_refs.map Const.cid).Nodup
    ∧ (dedupResult all_consts).canonical_ref_indices
        = all_consts.map (fun cs => (refConsts cs).map
            (fun c => canonIdx (dedupResult all_consts).acc.canonical_refs c.cid))
    ∧ ∀ c ∈ refConsts all_consts.flatten,
        ((dedupResult all_consts).acc.canonical_refs.map
            Const.cid)[canonIdx (dedupResult all_consts).acc.canonical_refs c.cid]?
          = some c.cid := by
  obtain ⟨h1, h2, _, _, h5⟩ := dedupResult_spec all_consts
  exact ⟨h1, h2.1, h5, fun c hc => getElem?_canonIdx (cid_mem_canonical hc)⟩

/-- Witness for C1 at the spec's Scenario 1: branch A captures ref `r1` and a
plain constant, branch B captures the same `r1` and another plain constant:
the canonical table has the single entry `r1` and both branches' indices point
at slot 0. -/
theorem dedup_refs_by_identity_witness :
    ((dedupResult [[⟨1, true, .ref 0⟩, ⟨2, false, .shaped 0 false⟩],
        [⟨1, true, .ref 0⟩, ⟨3, false, .shaped 1 false⟩]]).acc.canonical_refs
      = keepFirstRefs [] (refConsts ([[⟨1, true, .ref 0⟩, ⟨2, false, .shaped 0 false⟩],
          [⟨1, true, .ref 0⟩, ⟨3, false, .shaped 1 false⟩]] : List (List Const)).flatten))
    ∧ ((dedupResult [[⟨1, true, .ref 0⟩, ⟨2, false, .shaped 0 false⟩],
        [⟨1, true, .ref 0⟩, ⟨3, false, .shaped 1 false⟩]]).acc.canonical_refs.map
          Const.cid)[canonIdx (dedupResult [[⟨1, true, .ref 0⟩, ⟨2, false, .shaped 0 false⟩],
            [⟨1, true, .ref 0⟩, ⟨3, false, .shaped 1 false⟩]]).acc.canonical_refs
              (⟨1, true, .ref 0⟩ : Const).cid]? = some (⟨1, true, .ref 0⟩ : Const).cid :=
  ⟨(dedup_refs_by_identity _).1,
    (dedup_refs_by_identity _).2.2.2 ⟨1, true, .ref 0⟩ (by decide)⟩

/-- Claim C3: the final `all_consts` sequence is exactly one entry per
canonical resource handle (its captured value taken once, in canonical
first-seen order) followed by the branch-by-branch concatenation of each
branch's own plain constants. -/
theorem all_consts_assembly (all_consts : List (List Const)) :
    allConstsOut all_consts
      = keepFirstRefs [] (refConsts all_consts.flatten) ++
          (all_consts.map plainConsts).flatten := by
  obtain ⟨h1, _, h3, _, _⟩ := dedupResult_spec all_consts
  simp only [allConstsOut]
  rw [h1, h3]

/-- The spec's Scenario 1 instance of the C3 assembly: with branch A capturing
`r1` and `5`-like plain constant, branch B the same `r1` and an `"x"`-like
plain constant, `all_consts == [r1, 5, "x"]` and the canonical table has one
entry. -/
example :
    allConstsOut [[⟨1, true, .ref 0⟩, ⟨2, false, .shaped 0 false⟩],
        [⟨1, true, .ref 0⟩, ⟨3, false, .shaped 1 false⟩]]
      = [⟨1, true, .ref 0⟩, ⟨2, false, .shaped 0 false⟩, ⟨3, false, .shaped 1 false⟩]
    ∧ numCanonicalRefs [[⟨1, true, .ref 0⟩, ⟨2, false, .shaped 0 false⟩],
        [⟨1, true, .ref 0⟩, ⟨3, false, .shaped 1 false⟩]] = 1 := by decide

/-! ### Claim C5: effect recomputation -/

/-- Claim C5: after the padding rewrite, a branch's effect set is exactly the
effect-derivation function applied to the new bindings (constvars, invars,
outvars, equations) — and the rewrite never reads the pre-rewrite effect set,
so effects are recomputed, not copied forward.  This holds for every
effect-derivation function `mkEff` (the embedding of the external
`pe.make_jaxpr_effects`). -/
theorem effects_recomputed_pure
    (mkEff : List Var → List Var → List Atom → List Eqn → Effects)
    (jaxprs : List Jaxpr) (all_consts : List (List Const)) :
    (∀ jp ∈ paddedJaxprs mkEff jaxprs all_consts,
        jp.effects = mkEff jp.constvars jp.invars jp.outvars jp.eqns)
    ∧ ∀ (uref : List Var) (ucv : List (List Var)) (cri : List (List Nat))
        (i : Nat) (j : Jaxpr) (e : Effects),
        pad_jaxpr_constvars mkEff uref ucv cri i { j with effects := e }
          = pad_jaxpr_constvars mkEff uref ucv cri i j := by
  constructor
  · intro jp hjp
    simp only [paddedJaxprs, List.mem_map] at hjp
    obtain ⟨i, _, rfl⟩ := hjp
    rfl
  · intro uref ucv cri i j e
    rfl

/-- Witness for C5 at a concrete one-branch instance with a concrete effect
function. -/
theorem effects_recomputed_pure_witness :
    (default : Jaxpr) ∈
        paddedJaxprs (fun cs _ _ _ => cs.map Var.vid) [default] [[]]
    ∧ (default : Jaxpr).effects =
        (fun (cs : List Var) (_ : List Var) (_ : List Atom) (_ : List Eqn) =>
            cs.map Var.vid)
          (default : Jaxpr).constvars (default : Jaxpr).invars
          (default : Jaxpr).outvars (default : Jaxpr).eqns :=
  ⟨by decide,
    (effects_recomputed_pure (fun cs _ _ _ => cs.map Var.vid) [default] [[]]).1
      default (by decide)⟩

/-! ### Claim C6: the memoization cache -/

lemma cacheLookup_append_none {V : Type} {st : CacheState V} {k : CacheKey}
    (h : cacheLookup k st = none) (v : V) :
    cacheLookup k (st ++ [(k, v)]) = some v := by
  induction st with
  | nil => simp [cacheLookup]
  | cons p rest ih =>
    simp only [cacheLookup, List.cons_append] at h ⊢
    by_cases hp : p.1 = k
    · rw [if_pos hp] at h
      cases h
    · rw [if_neg hp] at h ⊢
      exact ih h

/-- Claim C6 (spec-modelled: the cache decorators live outside src/): for the
same key the computation runs at most once per live epoch — a second
`get_or_compute` with the key of a first one returns the stored value, does
not run `compute`, and leaves the cache unchanged — and weak-identity
eviction releases every entry whose keyed callable has become unreachable, so
the cache retains nothing keyed by a dead callable. -/
theorem memo_cache_at_most_once_and_weak {V : Type} :
    (∀ (st : CacheState V) (k : CacheKey) (f : Unit → V),
        (get_or_compute (get_or_compute st k f).2.1 k f).1
            = (get_or_compute st k f).1
          ∧ (get_or_compute (get_or_compute st k f).2.1 k f).2.2 = false
          ∧ (get_or_compute (get_or_compute st k f).2.1 k f).2.1
              = (get_or_compute st k f).2.1)
    ∧ ∀ (dead : List Nat) (st : CacheState V) (p : CacheKey × V),
        p ∈ evictDead dead st → p.1.fun_id ∉ dead := by
  constructor
  · intro st k f
    cases hl : cacheLookup k st with
    | some v =>
      simp [get_or_compute, hl]
    | none =>
      simp [get_or_compute, hl, cacheLookup_append_none hl]
  · intro dead st p hp
    have := List.of_mem_filter hp
    exact of_decide_eq_true this

/-- Witness for C6: a concrete double lookup on an initially empty cache and a
concrete eviction. -/
theorem memo_cache_at_most_once_and_weak_witness :
    ((get_or_compute
          (get_or_compute ([] : CacheState Nat) ⟨1, .leaf, [], none⟩
            (fun _ => 7)).2.1 ⟨1, .leaf, [], none⟩ (fun _ => 7)).2.2 = false)
    ∧ ((⟨2, .leaf, [], none⟩, 5) ∈
          evictDead [9] ([(⟨2, .leaf, [], none⟩, 5)] : CacheState Nat)
        → (2 : Nat) ∉ [9]) :=
  ⟨((memo_cache_at_most_once_and_weak (V := Nat)).1
      [] ⟨1, .leaf, [], none⟩ (fun _ => 7)).2.1,
    fun hm => (memo_cache_at_most_once_and_weak (V := Nat)).2
      [9] [(⟨2, .leaf, [], none⟩, 5)] (⟨2, .leaf, [], none⟩, 5) hm⟩

/-! ### Claim C10: the tracer assertion on ref constants -/

/-- Claim C10: when every captured ref-typed constant is a dynamic-trace
tracer, the assert guard never fires and the unifier returns its normal
result; a ref-typed non-tracer constant instead aborts with an assertion
failure (an error distinct from every diagnostic `CheckError` kind) — shown
at a concrete failing input of one branch capturing one non-tracer ref. -/
theorem ref_consts_tracer_assert
    (mkEff : List Var → List Var → List Atom → List Eqn → Effects)
    (jaxprs : List Jaxpr) (all_consts : List (List Const))
    (h : ∀ cs ∈ all_consts, ∀ c ∈ cs, isRefConst c = true → c.isTracer = true) :
    initial_style_jaxprs_checked mkEff jaxprs all_consts
        = .ok (initial_style_jaxprs_with_common_consts mkEff jaxprs all_consts).1
            (initial_style_jaxprs_with_common_consts mkEff jaxprs all_consts).2
    ∧ initial_style_jaxprs_checked mkEff jaxprs [[⟨0, false, .ref 0⟩]]
        = .assertionFailed := by
  constructor
  · have hguard : refConstsAreTracers all_consts = true := by
      simp only [refConstsAreTracers, List.all_eq_true]
      intro cs hcs c hc
      rcases hb : (_abstractify c).isRef with _ | _
      · simp [hb]
      · simpa [hb] using h cs hcs c hc hb
    simp [initial_style_jaxprs_checked, hguard]
  · rfl

/-- Witness for C10 at the Scenario-1-like input where all refs are tracers. -/
theorem ref_consts_tracer_assert_witness :
    initial_style_jaxprs_checked (fun cs _ _ _ => cs.map Var.vid) []
        [[⟨1, true, .ref 0⟩]]
      = .ok (initial_style_jaxprs_with_common_consts
              (fun cs _ _ _ => cs.map Var.vid) [] [[⟨1, true, .ref 0⟩]]).1
          (initial_style_jaxprs_with_common_consts
              (fun cs _ _ _ => cs.map Var.vid) [] [[⟨1, true, .ref 0⟩]]).2 :=
  (ref_consts_tracer_assert (fun cs _ _ _ => cs.map Var.vid) []
      [[⟨1, true, .ref 0⟩]] (by decide)).1

/-! ### Claims C7 and C8: the diagnostics -/

lemma zip_getElem?_of_getElem? {α β : Type} {l1 : List α} {l2 : List β} {k : Nat}
    {a : α} {b : β} (h1 : l1[k]? = some a) (h2 : l2[k]? = some b) :
    (l1.zip l2)[k]? = some (a, b) := by
  rw [List.getElem?_zip_eq_some]
  exact ⟨h1, h2⟩

/-- Claim C7: the structure/type validator raises a TypeError-kind error when
the two structures differ; when they match it fails exactly when some
corresponding pair of avals fails `typematch`, and the error then carries, per
leaf, either the common value or a marked difference — for every leaf, not
just the first.  Every error it can raise is TypeError-kind. -/
theorem check_tree_and_avals_spec (tree1 tree2 : PTree) (avals1 avals2 : List Aval) :
    (tree1 ≠ tree2 →
      _check_tree_and_avals tree1 avals1 tree2 avals2
        = .err (.structureMismatch tree1 tree2))
    ∧ (tree1 = tree2 →
        (_check_tree_and_avals tree1 avals1 tree2 avals2 = .ok
          ↔ ∀ p ∈ avals1.zip avals2, typematch p.1 p.2 = true))
    ∧ (tree1 = tree2 → ¬ (∀ p ∈ avals1.zip avals2, typematch p.1 p.2 = true) →
        _check_tree_and_avals tree1 avals1 tree2 avals2
          = .err (.typeMismatch ((avals1.zip avals2).map fun p => _show_diff p.1 p.2)))
    ∧ (∀ (k : Nat) (a b : Aval), avals1[k]? = some a → avals2[k]? = some b →
        ((avals1.zip avals2).map fun p => _show_diff p.1 p.2)[k]?
          = some (if typematch a b then DiffEntry.same a
                  else DiffEntry.different a b))
    ∧ ∀ e, _check_tree_and_avals tree1 avals1 tree2 avals2 = .err e →
        e.kind = .typeError := by
  have hbase : tree1 = tree2 → _check_tree_and_avals tree1 avals1 tree2 avals2
      = if !((avals1.zip avals2).all fun p => typematch p.1 p.2) then
          .err (.typeMismatch ((avals1.zip avals2).map fun p => _show_diff p.1 p.2))
        else .ok := by
    intro heq
    subst heq
    simp only [_check_tree_and_avals]
    rw [if_neg (fun hx => hx rfl)]
  refine ⟨?_, ?_, ?_, ?_, ?_⟩
  · intro hne
    simp [_check_tree_and_avals, hne]
  · intro heq
    rw [hbase heq]
    cases hA : (avals1.zip avals2).all fun p => typematch p.1 p.2 with
    | true =>
      simp only [Bool.not_true, Bool.false_eq_true, if_false]
      simpa [List.all_eq_true] using hA
    | false =>
      simp only [Bool.not_false, if_true]
      constructor
      · intro hx
        cases hx
      · intro hall
        exfalso
        have : (avals1.zip avals2).all (fun p => typematch p.1 p.2) = true := by
          simpa [List.all_eq_true] using hall
        rw [hA] at this
        cases this
  · intro heq hnall
    rw [hbase heq]
    have hA : (avals1.zip avals2).all (fun p => typematch p.1 p.2) = false := by
      by_contra hx
      exact hnall (by simpa [List.all_eq_true] using Bool.of_not_eq_false hx)
    rw [hA]
    rfl
  · intro k a b h1 h2
    rw [List.getElem?_map, zip_getElem?_of_getElem? h1 h2]
    simp [_show_diff]
  · intro e he
    by_cases heq : tree1 = tree2
    · rw [hbase heq] at he
      cases hA : (avals1.zip avals2).all fun p => typematch p.1 p.2 with
      | true =>
        rw [hA] at he
        cases he
      | false =>
        rw [hA] at he
        cases he
        rfl
    · rw [(_ : _check_tree_and_avals tree1 avals1 tree2 avals2
          = .err (.structureMismatch tree1 tree2))] at he
      · cases he
        rfl
      · simp [_check_tree_and_avals, heq]

/-- Witness for C7 at the spec's Scenario 4: two equal two-leaf structures
whose avals differ at exactly the second leaf: the validator fails with a
TypeError-kind diff marking leaf 0 as common and leaf 1 as differing. -/
theorem check_tree_and_avals_spec_witness :
    _check_tree_and_avals (.node2 .leaf .leaf) [.shaped 0 false, .shaped 1 false]
        (.node2 .leaf .leaf) [.shaped 0 true, .shaped 2 false]
      = .err (.typeMismatch
          [.same (.shaped 0 false), .different (.shaped 1 false) (.shaped 2 false)]) := by
  have h := (check_tree_and_avals_spec (.node2 .leaf .leaf) (.node2 .leaf .leaf)
    [.shaped 0 false, .shaped 1 false] [.shaped 0 true, .shaped 2 false]).2.2.1
    rfl (by decide)
  rw [h]
  decide

/-- Claim C8: with the auxiliary-output flag set, an actual structure without
exactly two children yields a ValueError-kind error independent of the
expected structure (so before any structure comparison); with exactly two
children the first child is extracted and compared, and a TypeError-kind
error is raised exactly when it differs from the expected structure. -/
theorem check_tree_aux_spec (actual expected : PTree) :
    (actual.children.length ≠ 2 →
      (∀ e2 : PTree, _check_tree actual e2 true = .err (.auxShape actual))
        ∧ (CheckError.auxShape actual).kind = .valueError)
    ∧ ∀ t1 t2, actual.children = [t1, t2] →
        ((_check_tree actual expected true = .ok ↔ t1 = expected)
          ∧ (t1 ≠ expected →
              _check_tree actual expected true = .err (.treeMismatch t1 expected)
                ∧ (CheckError.treeMismatch t1 expected).kind = .typeError)) := by
  constructor
  · intro hn
    exact ⟨fun e2 => by simp [_check_tree, hn], rfl⟩
  · intro t1 t2 hch
    constructor
    · constructor
      · intro hok
        by_contra hne
        simp [_check_tree, hch, hne] at hok
      · intro heq
        simp [_check_tree, hch, heq]
    · intro hne
      exact ⟨by simp [_check_tree, hch, hne], rfl⟩

/-- Witness for C8 at the spec's Scenario 3: a single-leaf actual structure
with the aux flag set yields the ValueError-kind aux-shape error whatever the
expected structure is; a proper two-child structure compares its first
child. -/
theorem check_tree_aux_spec_witness :
    _check_tree .leaf .node0 true = .err (.auxShape .leaf)
    ∧ (_check_tree (.node2 .leaf .node0) .leaf true = .ok ↔ PTree.leaf = PTree.leaf) :=
  ⟨((check_tree_aux_spec .leaf .leaf).1 (by decide)).1 .node0,
    ((check_tree_aux_spec (.node2 .leaf .node0) .leaf).2 .leaf .node0 (by decide)).1⟩

/-! ### Lemmas: padding infrastructure -/

lemma mem_of_getElem?_aux {α : Type} {l : List α} {i : Nat} {a : α}
    (h : l[i]? = some a) : a ∈ l := by
  have hlt : i < l.length := by
    by_contra hx
    rw [List.getElem?_eq_none (by omega)] at h
    cases h
  rw [List.getElem?_eq_getElem hlt] at h
  cases h
  exact List.getElem_mem hlt

lemma partition_list_map {α : Type} (f : α → Bool) (l : List α) :
    partition_list (l.map f) l = (l.filter (fun x => !f x), l.filter f) := by
  induction l with
  | nil => rfl
  | cons x l ih =>
    simp only [List.map_cons, partition_list, ih, List.filter_cons]
    cases hf : f x <;> simp [hf]

lemma writeCanonical_length (ps : List (Nat × Var)) (l : List Var) :
    (writeCanonical l ps).length = l.length := by
  induction ps generalizing l with
  | nil => rfl
  | cons p rest ih => simp [writeCanonical, ih]

lemma writeCanonical_getElem?_of_not_mem (ps : List (Nat × Var)) (l : List Var)
    {j : Nat} (hj : j ∉ ps.map Prod.fst) :
    (writeCanonical l ps)[j]? = l[j]? := by
  induction ps generalizing l with
  | nil => rfl
  | cons p rest ih =>
    simp only [List.map_cons, List.mem_cons] at hj
    push_neg at hj
    simp only [writeCanonical]
    rw [ih _ hj.2, List.getElem?_set_ne (fun hx => hj.1 hx.symm)]

lemma writeCanonical_getElem?_of_mem (ps : List (Nat × Var)) (l : List Var)
    (hnd : (ps.map Prod.fst).Nodup) {i : Nat} {v : Var}
    (hmem : (i, v) ∈ ps) (hi : i < l.length) :
    (writeCanonical l ps)[i]? = some v := by
  induction ps generalizing l with
  | nil => cases hmem
  | cons p rest ih =>
    simp only [List.map_cons, List.nodup_cons] at hnd
    rcases List.mem_cons.mp hmem with rfl | hmem2
    · rw [writeCanonical, writeCanonical_getElem?_of_not_mem _ _ hnd.1]
      exact List.getElem?_set_eq_of_lt v (by simpa using hi)
    · rw [writeCanonical]
      exact ih _ hnd.2 hmem2 (by simpa using hi)

lemma freshVarsFrom_length (avals : List Aval) (base : Nat) :
    (freshVarsFrom base avals).length = avals.length := by
  induction avals generalizing base with
  | nil => rfl
  | cons a rest ih => simp [freshVarsFrom, ih]

lemma freshVarsFrom_append (avals1 avals2 : List Aval) (base : Nat) :
    freshVarsFrom base (avals1 ++ avals2)
      = freshVarsFrom base avals1 ++ freshVarsFrom (base + avals1.length) avals2 := by
  induction avals1 generalizing base with
  | nil => simp [freshVarsFrom]
  | cons a rest ih =>
    simp only [List.cons_append, List.append_eq, freshVarsFrom, List.length_cons, ih]
    have h : base + 1 + rest.length = base + (rest.length + 1) := by omega
    rw [h]

lemma freshVarsFrom_map_vid (avals : List Aval) (base : Nat) :
    (freshVarsFrom base avals).map Var.vid = List.range' base avals.length := by
  induction avals generalizing base with
  | nil => rfl
  | cons a rest ih => simp [freshVarsFrom, ih, List.range']

lemma freshVarsFrom_nodup (avals : List Aval) (base : Nat) :
    (freshVarsFrom base avals).Nodup :=
  List.Nodup.of_map Var.vid (by rw [freshVarsFrom_map_vid]; exact List.nodup_range' ..)

lemma mem_freshVarsFrom_vid {avals : List Aval} {base : Nat} {v : Var}
    (h : v ∈ freshVarsFrom base avals) :
    base ≤ v.vid ∧ v.vid < base + avals.length := by
  have : v.vid ∈ (freshVarsFrom base avals).map Var.vid := List.mem_map_of_mem _ h
  rw [freshVarsFrom_map_vid] at this
  have := List.mem_range'.mp this
  omega

lemma freshVarsNested_flatten (ll : List (List Aval)) (base : Nat) :
    (freshVarsNested base ll).flatten = freshVarsFrom base ll.flatten := by
  induction ll generalizing base with
  | nil => rfl
  | cons l rest ih =>
    simp only [freshVarsNested, List.flatten_cons, ih, freshVarsFrom_append]

lemma freshVarsNested_map_length (ll : List (List Aval)) (base : Nat) :
    (freshVarsNested base ll).map List.length = ll.map List.length := by
  induction ll generalizing base with
  | nil => rfl
  | cons l rest ih => simp [freshVarsNested, ih, freshVarsFrom_length]

lemma freshVarsNested_length (ll : List (List Aval)) (base : Nat) :
    (freshVarsNested base ll).length = ll.length := by
  have := freshVarsNested_map_length ll base
  have h1 := congrArg List.length this
  simpa using h1

lemma le_foldr_max {x : Nat} {l : List Nat} (h : x ∈ l) : x ≤ l.foldr Nat.max 0 := by
  induction l with
  | nil => cases h
  | cons a l ih =>
    rcases List.mem_cons.mp h with rfl | h2
    · exact Nat.le_max_left _ _
    · exact le_trans (ih h2) (Nat.le_max_right _ _)

lemma vid_le_maxVidAll {jaxprs : List Jaxpr} {j : Jaxpr} (hj : j ∈ jaxprs)
    {v : Var} (hv : v ∈ j.allVars) : v.vid ≤ maxVidAll jaxprs := by
  apply le_foldr_max
  exact List.mem_map_of_mem _ (List.mem_flatMap.mpr ⟨j, hj, hv⟩)

lemma constvars_subset_allVars (j : Jaxpr) : ∀ v ∈ j.constvars, v ∈ j.allVars := by
  intro v hv
  simp [Jaxpr.allVars, hv]

lemma invars_subset_allVars (j : Jaxpr) : ∀ v ∈ j.invars, v ∈ j.allVars := by
  intro v hv
  simp [Jaxpr.allVars, hv]

lemma eqn_outvars_subset_allVars (j : Jaxpr) :
    ∀ v ∈ j.eqns.flatMap Eqn.outvars, v ∈ j.allVars := by
  intro v hv
  rcases List.mem_flatMap.mp hv with ⟨e, he, hv2⟩
  simp only [Jaxpr.allVars, List.append_assoc, List.mem_append]
  right; right; left
  exact List.mem_flatMap.mpr ⟨e, he, List.mem_append.mpr (Or.inl hv2)⟩

lemma getD_map_of_lt {α β : Type} (f : α → β) (l : List α) {i : Nat}
    (hi : i < l.length) (d : β) (d2 : α) :
    (l.map f).getD i d = f (l.getD i d2) := by
  rw [List.getD_eq_getElem?_getD, List.getD_eq_getElem?_getD, List.getElem?_map,
    List.getElem?_eq_getElem hi]
  rfl

lemma corresponds_filter {j : Jaxpr} {cs : List Const} (h : Corresponds j cs) :
    (j.constvars.filter fun v => v.aval.isRef).length = (refConsts cs).length
    ∧ (j.constvars.filter fun v => !v.aval.isRef).length = (plainConsts cs).length := by
  constructor
  · simp only [refConsts]
    rw [← List.countP_eq_length_filter, ← List.countP_eq_length_filter]
    have h1 : List.countP (fun v => v.aval.isRef) j.constvars
        = List.countP Aval.isRef (j.constvars.map Var.aval) := by
      rw [List.countP_map]
      rfl
    have h2 : List.countP isRefConst cs
        = List.countP Aval.isRef (cs.map _abstractify) := by
      rw [List.countP_map]
      rfl
    rw [h1, h2, h]
  · simp only [plainConsts]
    rw [← List.countP_eq_length_filter, ← List.countP_eq_length_filter]
    have h1 : List.countP (fun v => !v.aval.isRef) j.constvars
        = List.countP (fun a => !a.isRef) (j.constvars.map Var.aval) := by
      rw [List.countP_map]
      rfl
    have h2 : List.countP (fun c => !isRefConst c) cs
        = List.countP (fun a => !a.isRef) (cs.map _abstractify) := by
      rw [List.countP_map]
      rfl
    rw [h1, h2, h]

lemma wfFrom_mono {env env' : List Var} (hsub : ∀ v ∈ env, v ∈ env') :
    ∀ {eqns : List Eqn} {outs : List Atom},
      wfFrom env eqns outs = true → wfFrom env' eqns outs = true := by
  intro eqns
  induction eqns generalizing env env' with
  | nil =>
    intro outs h
    simp only [wfFrom, List.all_eq_true, decide_eq_true_eq] at h ⊢
    exact fun a ha v hv => hsub v (h a ha v hv)
  | cons e es ih =>
    intro outs h
    simp only [wfFrom, Bool.and_eq_true, List.all_eq_true, decide_eq_true_eq] at h ⊢
    refine ⟨fun a ha v hv => hsub v (h.1 a ha v hv), ?_⟩
    refine ih ?_ h.2
    intro v hv
    rcases List.mem_append.mp hv with h1 | h2
    · exact List.mem_append.mpr (Or.inl (hsub v h1))
    · exact List.mem_append.mpr (Or.inr h2)

/-! ### Lemmas: the per-branch padding rewrite -/

lemma getD_mem {α : Type} {l : List α} {i : Nat} (hi : i < l.length) (d : α) :
    l.getD i d ∈ l := by
  rw [List.getD_eq_getElem?_getD, List.getElem?_eq_getElem hi]
  exact List.getElem_mem hi

lemma pad_fields (mkEff : List Var → List Var → List Atom → List Eqn → Effects)
    (uref : List Var) (ucv : List (List Var)) (cri : List (List Nat))
    (i : Nat) (j : Jaxpr) :
    (pad_jaxpr_constvars mkEff uref ucv cri i j).invars = j.invars
    ∧ (pad_jaxpr_constvars mkEff uref ucv cri i j).eqns = j.eqns
    ∧ (pad_jaxpr_constvars mkEff uref ucv cri i j).outvars = j.outvars :=
  ⟨rfl, rfl, rfl⟩

lemma pad_constvars_eq (mkEff : List Var → List Var → List Atom → List Eqn → Effects)
    (uref : List Var) (ucv : List (List Var)) (cri : List (List Nat))
    (i : Nat) (j : Jaxpr) :
    (pad_jaxpr_constvars mkEff uref ucv cri i j).constvars
      = writeCanonical uref
          ((cri.getD i []).zip (j.constvars.filter fun v => v.aval.isRef))
        ++ (ucv.take i).flatten
        ++ (j.constvars.filter fun v => !v.aval.isRef)
        ++ (ucv.drop (i + 1)).flatten := by
  simp only [pad_jaxpr_constvars, partition_list_map]

lemma paddedJaxprs_getD (mkEff : List Var → List Var → List Atom → List Eqn → Effects)
    (jaxprs : List Jaxpr) (all_consts : List (List Const)) {i : Nat}
    (hi : i < jaxprs.length) :
    (paddedJaxprs mkEff jaxprs all_consts).getD i default
      = pad_jaxpr_constvars mkEff (unusedRefConstVars jaxprs all_consts)
          (unusedConstVars jaxprs all_consts)
          (dedupResult all_consts).canonical_ref_indices i
          (jaxprs.getD i default) := by
  simp only [paddedJaxprs]
  rw [getD_map_of_lt _ _ (by simpa using hi) _ 0]
  have hr : (List.range jaxprs.length).getD i 0 = i := by
    rw [List.getD_eq_getElem?_getD, List.getElem?_range hi]
    rfl
  rw [hr]

lemma cri_getD (jaxprs : List Jaxpr) (all_consts : List (List Const))
    (hlen : jaxprs.length = all_consts.length) {i : Nat} (hi : i < jaxprs.length) :
    (dedupResult all_consts).canonical_ref_indices.getD i []
      = (refConsts (all_consts.getD i [])).map
          (fun c => canonIdx (dedupResult all_consts).acc.canonical_refs c.cid) := by
  rw [(dedupResult_spec all_consts).2.2.2.2]
  exact getD_map_of_lt _ _ (by omega) _ []

lemma uref_length (jaxprs : List Jaxpr) (all_consts : List (List Const)) :
    (unusedRefConstVars jaxprs all_consts).length
      = (dedupResult all_consts).acc.canonical_refs.length := by
  rw [unusedRefConstVars, freshVarsFrom_length, (dedupResult_spec all_consts).2.1.2.2]
  simp

lemma ucv_map_length (jaxprs : List Jaxpr) (all_consts : List (List Const)) :
    (unusedConstVars jaxprs all_consts).map List.length
      = all_consts.map (fun cs => (plainConsts cs).length) := by
  rw [unusedConstVars, freshVarsNested_map_length, (dedupResult_spec _).2.2.2.1]
  simp only [List.map_map]
  refine List.map_congr_left fun cs _ => ?_
  simp

lemma branch_ref_cid_mem (all_consts : List (List Const)) {i : Nat}
    (hi : i < all_consts.length) :
    ∀ c ∈ refConsts (all_consts.getD i []),
      c.cid ∈ (dedupResult all_consts).acc.canonical_refs.map Const.cid := by
  intro c hc
  apply cid_mem_canonical
  simp only [refConsts, List.mem_filter] at hc ⊢
  exact ⟨List.mem_flatten.mpr ⟨all_consts.getD i [], getD_mem hi [], hc.1⟩, hc.2⟩

lemma canonIdx_inj_on {R : List Const} {k1 k2 : Nat}
    (h1 : k1 ∈ R.map Const.cid) (h2 : k2 ∈ R.map Const.cid)
    (he : canonIdx R k1 = canonIdx R k2) : k1 = k2 := by
  have e1 := getElem?_canonIdx h1
  have e2 := getElem?_canonIdx h2
  rw [he] at e1
  rw [e1] at e2
  cases e2
  rfl

lemma canonIdx_lt {R : List Const} {k : Nat} (h : k ∈ R.map Const.cid) :
    canonIdx R k < R.length := by
  have := List.indexOf_lt_length.mpr h
  simpa [canonIdx] using this

lemma idxs_nodup (all_consts : List (List Const)) {i : Nat}
    (hi : i < all_consts.length)
    (hnodup : ((refConsts (all_consts.getD i [])).map Const.cid).Nodup) :
    ((refConsts (all_consts.getD i [])).map
        (fun c => canonIdx (dedupResult all_consts).acc.canonical_refs c.cid)).Nodup := by
  have hmap : (refConsts (all_consts.getD i [])).map
      (fun c => canonIdx (dedupResult all_consts).acc.canonical_refs c.cid)
      = ((refConsts (all_consts.getD i [])).map Const.cid).map
          (canonIdx (dedupResult all_consts).acc.canonical_refs) := by
    rw [List.map_map]
    rfl
  rw [hmap]
  refine hnodup.map_on ?_
  intro k1 h1 k2 h2 he
  have hm1 : k1 ∈ (dedupResult all_consts).acc.canonical_refs.map Const.cid := by
    rcases List.mem_map.mp h1 with ⟨c, hc, rfl⟩
    exact branch_ref_cid_mem all_consts hi c hc
  have hm2 : k2 ∈ (dedupResult all_consts).acc.canonical_refs.map Const.cid := by
    rcases List.mem_map.mp h2 with ⟨c, hc, rfl⟩
    exact branch_ref_cid_mem all_consts hi c hc
  exact canonIdx_inj_on hm1 hm2 he

lemma idxs_bound (jaxprs : List Jaxpr) (all_consts : List (List Const)) {i : Nat}
    (hi : i < all_consts.length) :
    ∀ q ∈ (refConsts (all_consts.getD i [])).map
        (fun c => canonIdx (dedupResult all_consts).acc.canonical_refs c.cid),
      q < (unusedRefConstVars jaxprs all_consts).length := by
  intro q hq
  rcases List.mem_map.mp hq with ⟨c, hc, rfl⟩
  rw [uref_length]
  exact canonIdx_lt (branch_ref_cid_mem all_consts hi c hc)

lemma writeCanonical_zip_slots (uref : List Var) (idxs : List Nat) (refvars : List Var)
    (hlen : idxs.length = refvars.length) (hnd : idxs.Nodup)
    (hbound : ∀ q ∈ idxs, q < uref.length) :
    (∀ p, p < refvars.length →
        (writeCanonical uref (idxs.zip refvars))[idxs.getD p 0]?
          = some (refvars.getD p default))
    ∧ (∀ s, s ∉ idxs → (writeCanonical uref (idxs.zip refvars))[s]? = uref[s]?)
    ∧ ∀ v ∈ refvars, v ∈ writeCanonical uref (idxs.zip refvars) := by
  have hfst : (idxs.zip refvars).map Prod.fst = idxs :=
    List.map_fst_zip _ _ (le_of_eq hlen)
  have hS2 : ∀ p, p < refvars.length →
      (writeCanonical uref (idxs.zip refvars))[idxs.getD p 0]?
        = some (refvars.getD p default) := by
    intro p hp
    have hp1 : p < idxs.length := by omega
    have hgd1 : idxs.getD p 0 = idxs[p] := by
      rw [List.getD_eq_getElem?_getD, List.getElem?_eq_getElem hp1]
      rfl
    have hgd2 : refvars.getD p default = refvars[p] := by
      rw [List.getD_eq_getElem?_getD, List.getElem?_eq_getElem hp]
      rfl
    have hzlen : p < (idxs.zip refvars).length := by
      simp only [List.length_zip]
      omega
    have hpair : (idxs[p], refvars[p]) ∈ idxs.zip refvars := by
      refine mem_of_getElem?_aux (i := p) ?_
      rw [List.getElem?_zip_eq_some]
      exact ⟨List.getElem?_eq_getElem hp1, List.getElem?_eq_getElem hp⟩
    rw [hgd1, hgd2]
    refine writeCanonical_getElem?_of_mem _ _ (by rw [hfst]; exact hnd) hpair ?_
    exact hbound _ (List.getElem_mem hp1)
  refine ⟨hS2, ?_, ?_⟩
  · intro s hs
    exact writeCanonical_getElem?_of_not_mem _ _ (by rw [hfst]; exact hs)
  · intro v hv
    rcases List.getElem_of_mem hv with ⟨p, hp, rfl⟩
    have := hS2 p hp
    have hgd2 : refvars.getD p default = refvars[p] := by
      rw [List.getD_eq_getElem?_getD, List.getElem?_eq_getElem hp]
      rfl
    rw [hgd2] at this
    exact mem_of_getElem?_aux this

lemma sum_take_getD_drop {L : List Nat} {i : Nat} (hi : i < L.length) :
    (L.take i).sum + (L.getD i 0 + (L.drop (i + 1)).sum) = L.sum := by
  have hdrop : L.drop i = L[i] :: L.drop (i + 1) := List.drop_eq_getElem_cons hi
  have hsum := List.sum_take_add_sum_drop L i
  rw [hdrop, List.sum_cons] at hsum
  have hgd : L.getD i 0 = L[i] := by
    rw [List.getD_eq_getElem?_getD, List.getElem?_eq_getElem hi]
    rfl
  rw [hgd]
  omega

lemma pad_branch_spec (mkEff : List Var → List Var → List Atom → List Eqn → Effects)
    (jaxprs : List Jaxpr) (all_consts : List (List Const))
    (hlen : jaxprs.length = all_consts.length) {i : Nat} (hi : i < jaxprs.length)
    (hcorr : Corresponds (jaxprs.getD i default) (all_consts.getD i []))
    (hnodup : ((refConsts (all_consts.getD i [])).map Const.cid).Nodup) :
    ((paddedJaxprs mkEff jaxprs all_consts).getD i default).constvars
        = writeCanonical (unusedRefConstVars jaxprs all_consts)
            (((refConsts (all_consts.getD i [])).map
                (fun c => canonIdx (dedupResult all_consts).acc.canonical_refs c.cid)).zip
              ((jaxprs.getD i default).constvars.filter fun v => v.aval.isRef))
          ++ ((unusedConstVars jaxprs all_consts).take i).flatten
          ++ ((jaxprs.getD i default).constvars.filter fun v => !v.aval.isRef)
          ++ ((unusedConstVars jaxprs all_consts).drop (i + 1)).flatten
    ∧ (writeCanonical (unusedRefConstVars jaxprs all_consts)
          (((refConsts (all_consts.getD i [])).map
              (fun c => canonIdx (dedupResult all_consts).acc.canonical_refs c.cid)).zip
            ((jaxprs.getD i default).constvars.filter fun v => v.aval.isRef))).length
        = numCanonicalRefs all_consts
    ∧ (∀ p, p < ((jaxprs.getD i default).constvars.filter fun v => v.aval.isRef).length →
        (writeCanonical (unusedRefConstVars jaxprs all_consts)
            (((refConsts (all_consts.getD i [])).map
                (fun c => canonIdx (dedupResult all_consts).acc.canonical_refs c.cid)).zip
              ((jaxprs.getD i default).constvars.filter fun v => v.aval.isRef)))[
            ((refConsts (all_consts.getD i [])).map
                (fun c => canonIdx (dedupResult all_consts).acc.canonical_refs c.cid)).getD p 0]?
          = some (((jaxprs.getD i default).constvars.filter
              fun v => v.aval.isRef).getD p default))
    ∧ (∀ s, s ∉ (refConsts (all_consts.getD i [])).map
          (fun c => canonIdx (dedupResult all_consts).acc.canonical_refs c.cid) →
        (writeCanonical (unusedRefConstVars jaxprs all_consts)
            (((refConsts (all_consts.getD i [])).map
                (fun c => canonIdx (dedupResult all_consts).acc.canonical_refs c.cid)).zip
              ((jaxprs.getD i default).constvars.filter fun v => v.aval.isRef)))[s]?
          = (unusedRefConstVars jaxprs all_consts)[s]?)
    ∧ ((paddedJaxprs mkEff jaxprs all_consts).getD i default).constvars.length
        = numCanonicalRefs all_consts + totalPlainConsts all_consts
    ∧ ∀ v ∈ (jaxprs.getD i default).constvars,
        v ∈ ((paddedJaxprs mkEff jaxprs all_consts).getD i default).constvars := by
  have hi2 : i < all_consts.length := by omega
  have hsec : ((paddedJaxprs mkEff jaxprs all_consts).getD i default).constvars
      = writeCanonical (unusedRefConstVars jaxprs all_consts)
          (((refConsts (all_consts.getD i [])).map
              (fun c => canonIdx (dedupResult all_consts).acc.canonical_refs c.cid)).zip
            ((jaxprs.getD i default).constvars.filter fun v => v.aval.isRef))
        ++ ((unusedConstVars jaxprs all_consts).take i).flatten
        ++ ((jaxprs.getD i default).constvars.filter fun v => !v.aval.isRef)
        ++ ((unusedConstVars jaxprs all_consts).drop (i + 1)).flatten := by
    rw [paddedJaxprs_getD mkEff jaxprs all_consts hi, pad_constvars_eq,
      cri_getD jaxprs all_consts hlen hi]
  have hWlen : (writeCanonical (unusedRefConstVars jaxprs all_consts)
      (((refConsts (all_consts.getD i [])).map
          (fun c => canonIdx (dedupResult all_consts).acc.canonical_refs c.cid)).zip
        ((jaxprs.getD i default).constvars.filter fun v => v.aval.isRef))).length
      = numCanonicalRefs all_consts := by
    rw [writeCanonical_length, uref_length]
    rfl
  have hlens : ((refConsts (all_consts.getD i [])).map
        (fun c => canonIdx (dedupResult all_consts).acc.canonical_refs c.cid)).length
      = ((jaxprs.getD i default).constvars.filter fun v => v.aval.isRef).length := by
    rw [List.length_map, (corresponds_filter hcorr).1]
  obtain ⟨hS2, hS3, hS4⟩ := writeCanonical_zip_slots
    (unusedRefConstVars jaxprs all_consts)
    ((refConsts (all_consts.getD i [])).map
      (fun c => canonIdx (dedupResult all_consts).acc.canonical_refs c.cid))
    ((jaxprs.getD i default).constvars.filter fun v => v.aval.isRef)
    hlens (idxs_nodup all_consts hi2 hnodup) (idxs_bound jaxprs all_consts hi2)
  have hLlen : i < (all_consts.map fun cs => (plainConsts cs).length).length := by
    simpa using hi2
  have hpre : (((unusedConstVars jaxprs all_consts).take i).flatten).length
      = ((all_consts.map fun cs => (plainConsts cs).length).take i).sum := by
    rw [List.length_flatten, List.map_take, ucv_map_length]
  have hsuf : (((unusedConstVars jaxprs all_consts).drop (i + 1)).flatten).length
      = ((all_consts.map fun cs => (plainConsts cs).length).drop (i + 1)).sum := by
    rw [List.length_flatten, List.map_drop, ucv_map_length]
  have hown : ((jaxprs.getD i default).constvars.filter fun v => !v.aval.isRef).length
      = (all_consts.map fun cs => (plainConsts cs).length).getD i 0 := by
    rw [(corresponds_filter hcorr).2, getD_map_of_lt _ _ hi2 0 []]
  have htot : ((paddedJaxprs mkEff jaxprs all_consts).getD i default).constvars.length
      = numCanonicalRefs all_consts + totalPlainConsts all_consts := by
    rw [hsec]
    simp only [List.length_append, totalPlainConsts]
    rw [hWlen, hpre, hown, hsuf]
    have hfin := sum_take_getD_drop hLlen
    omega
  refine ⟨hsec, hWlen, hS2, hS3, htot, ?_⟩
  intro v hv
  rw [hsec]
  cases hr : v.aval.isRef with
  | true =>
    have hvref : v ∈ (jaxprs.getD i default).constvars.filter fun v => v.aval.isRef :=
      List.mem_filter.mpr ⟨hv, hr⟩
    exact List.mem_append.mpr (Or.inl (List.mem_append.mpr (Or.inl
      (List.mem_append.mpr (Or.inl (hS4 v hvref))))))
  | false =>
    have hvnon : v ∈ (jaxprs.getD i default).constvars.filter fun v => !v.aval.isRef :=
      List.mem_filter.mpr ⟨hv, by simp [hr]⟩
    exact List.mem_append.mpr (Or.inl (List.mem_append.mpr (Or.inr hvnon)))

/-- Claim C2: for every branch `i`, the rewritten constvars list is exactly:
a ref section with one slot per canonical resource handle (the branch's own
ref variable at each canonical index the branch uses, the shared placeholder
elsewhere), then the placeholders for branches `0..i-1`'s plain constants,
then branch `i`'s own plain-constant variables in original relative order,
then the placeholders for branches `i+1..N-1`'s plain constants; consequently
its length is the same for every branch:
`num_canonical_resource_handles + sum(len(plain_consts_i))`. -/
theorem padded_constvars_order_and_length
    (mkEff : List Var → List Var → List Atom → List Eqn → Effects)
    (jaxprs : List Jaxpr) (all_consts : List (List Const))
    (hlen : jaxprs.length = all_consts.length) {i : Nat} (hi : i < jaxprs.length)
    (hcorr : Corresponds (jaxprs.getD i default) (all_consts.getD i []))
    (hnodup : ((refConsts (all_consts.getD i [])).map Const.cid).Nodup) :
    ∃ A : List Var,
      ((paddedJaxprs mkEff jaxprs all_consts).getD i default).constvars
          = A ++ ((unusedConstVars jaxprs all_consts).take i).flatten
            ++ ((jaxprs.getD i default).constvars.filter fun v => !v.aval.isRef)
            ++ ((unusedConstVars jaxprs all_consts).drop (i + 1)).flatten
      ∧ A.length = numCanonicalRefs all_consts
      ∧ (∀ p, p < ((jaxprs.getD i default).constvars.filter
            fun v => v.aval.isRef).length →
          A[((refConsts (all_consts.getD i [])).map
              (fun c => canonIdx (dedupResult all_consts).acc.canonical_refs
                c.cid)).getD p 0]?
            = some (((jaxprs.getD i default).constvars.filter
                fun v => v.aval.isRef).getD p default))
      ∧ (∀ s, s ∉ (refConsts (all_consts.getD i [])).map
            (fun c => canonIdx (dedupResult all_consts).acc.canonical_refs c.cid) →
          A[s]? = (unusedRefConstVars jaxprs all_consts)[s]?)
      ∧ ((paddedJaxprs mkEff jaxprs all_consts).getD i default).constvars.length
          = numCanonicalRefs all_consts + totalPlainConsts all_consts := by
  obtain ⟨h1, h2, h3, h4, h5, _⟩ :=
    pad_branch_spec mkEff jaxprs all_consts hlen hi hcorr hnodup
  exact ⟨_, h1, h2, h3, h4, h5⟩

/-- Witness for C2 at a concrete two-branch instance (Scenario 1 shape): both
branches get padded constvar lists of length `1 + (1 + 1)`. -/
theorem padded_constvars_order_and_length_witness :
    ((paddedJaxprs (fun cs _ _ _ => cs.map Var.vid)
        [⟨[⟨10, .ref 0⟩, ⟨11, .shaped 0 false⟩], [], [], [], []⟩,
          ⟨[⟨12, .ref 0⟩, ⟨13, .shaped 1 false⟩], [], [], [], []⟩]
        [[⟨1, true, .ref 0⟩, ⟨2, false, .shaped 0 false⟩],
          [⟨1, true, .ref 0⟩, ⟨3, false, .shaped 1 false⟩]]).getD 1 default).constvars.length
      = numCanonicalRefs [[⟨1, true, .ref 0⟩, ⟨2, false, .shaped 0 false⟩],
            [⟨1, true, .ref 0⟩, ⟨3, false, .shaped 1 false⟩]]
          + totalPlainConsts [[⟨1, true, .ref 0⟩, ⟨2, false, .shaped 0 false⟩],
            [⟨1, true, .ref 0⟩, ⟨3, false, .shaped 1 false⟩]] := by
  obtain ⟨A, h1, h2, h3, h4, h5⟩ :=
    padded_constvars_order_and_length (fun cs _ _ _ => cs.map Var.vid)
      [⟨[⟨10, .ref 0⟩, ⟨11, .shaped 0 false⟩], [], [], [], []⟩,
        ⟨[⟨12, .ref 0⟩, ⟨13, .shaped 1 false⟩], [], [], [], []⟩]
      [[⟨1, true, .ref 0⟩, ⟨2, false, .shaped 0 false⟩],
        [⟨1, true, .ref 0⟩, ⟨3, false, .shaped 1 false⟩]]
      (by decide) (i := 1) (by decide) (by decide) (by decide)
  exact h5

/-! ### Lemmas: freshness, disjointness and duplicate-freedom of the padded list -/

lemma nodup_getElem?_inj {α : Type} {l : List α} (h : l.Nodup) {p q : Nat} {w : α}
    (hp : l[p]? = some w) (hq : l[q]? = some w) : p = q := by
  by_contra hne
  have hplen : p < l.length := by
    by_contra hx
    rw [List.getElem?_eq_none (by omega)] at hp
    cases hp
  have hqlen : q < l.length := by
    by_contra hx
    rw [List.getElem?_eq_none (by omega)] at hq
    cases hq
  rcases Nat.lt_or_ge p q with hlt | hge
  · exact List.nodup_iff_getElem?_ne_getElem?.mp h p q hlt hqlen (hp.trans hq.symm)
  · have hlt2 : q < p := by omega
    exact List.nodup_iff_getElem?_ne_getElem?.mp h q p hlt2 hplen (hq.trans hp.symm)

lemma writeCanonical_mem_subset (ps : List (Nat × Var)) (l : List Var) :
    ∀ v ∈ writeCanonical l ps, v ∈ l ∨ v ∈ ps.map Prod.snd := by
  induction ps generalizing l with
  | nil => exact fun v hv => Or.inl hv
  | cons p rest ih =>
    intro v hv
    rcases ih _ v hv with h1 | h2
    · rcases List.mem_or_eq_of_mem_set h1 with h3 | h3
      · exact Or.inl h3
      · right
        simp [h3]
    · right
      simp only [List.map_cons, List.mem_cons]
      exact Or.inr h2

lemma writeCanonical_zip_getD_char (uref : List Var) (idxs : List Nat)
    (refvars : List Var) (hlen : idxs.length = refvars.length) (hnd : idxs.Nodup)
    (hbound : ∀ q ∈ idxs, q < uref.length) :
    ∀ x, x < uref.length → ∃ w : Var,
      (writeCanonical uref (idxs.zip refvars))[x]? = some w
      ∧ ((x ∉ idxs ∧ uref[x]? = some w)
          ∨ ∃ p, p < refvars.length ∧ idxs[p]? = some x ∧ refvars[p]? = some w) := by
  obtain ⟨hS2, hS3, _⟩ := writeCanonical_zip_slots uref idxs refvars hlen hnd hbound
  intro x hx
  by_cases hmem : x ∈ idxs
  · rcases List.getElem_of_mem hmem with ⟨p, hp, hpx⟩
    have hp2 : p < refvars.length := by omega
    have hgd : idxs.getD p 0 = x := by
      rw [List.getD_eq_getElem?_getD, List.getElem?_eq_getElem hp, hpx]
      rfl
    refine ⟨refvars.getD p default, ?_, Or.inr ⟨p, hp2, ?_, ?_⟩⟩
    · have h2 := hS2 p hp2
      rw [hgd] at h2
      exact h2
    · rw [List.getElem?_eq_getElem hp, hpx]
    · rw [List.getElem?_eq_getElem hp2, List.getD_eq_getElem?_getD,
        List.getElem?_eq_getElem hp2]
      rfl
  · exact ⟨uref[x], by rw [hS3 x hmem]; exact List.getElem?_eq_getElem hx,
      Or.inl ⟨hmem, List.getElem?_eq_getElem hx⟩⟩

lemma writeCanonical_zip_nodup (uref : List Var) (idxs : List Nat)
    (refvars : List Var) (hlen : idxs.length = refvars.length) (hnd : idxs.Nodup)
    (hbound : ∀ q ∈ idxs, q < uref.length)
    (hurefnd : uref.Nodup) (hrefnd : refvars.Nodup)
    (hdisj : ∀ v ∈ refvars, ∀ w ∈ uref, v ≠ w) :
    (writeCanonical uref (idxs.zip refvars)).Nodup := by
  have hchar := writeCanonical_zip_getD_char uref idxs refvars hlen hnd hbound
  rw [List.nodup_iff_getElem?_ne_getElem?]
  intro s t hst htlen
  rw [writeCanonical_length] at htlen
  have hslen : s < uref.length := by omega
  obtain ⟨w1, he1, hc1⟩ := hchar s hslen
  obtain ⟨w2, he2, hc2⟩ := hchar t htlen
  rw [he1, he2]
  intro heq
  have hw : w1 = w2 := by
    injection heq
  subst hw
  rcases hc1 with ⟨hs1, hs2⟩ | ⟨p, hp, hps, hpw⟩
  · rcases hc2 with ⟨ht1, ht2⟩ | ⟨q, hq, hqs, hqw⟩
    · exact absurd (nodup_getElem?_inj hurefnd hs2 ht2) (by omega)
    · exact hdisj w1 (mem_of_getElem?_aux hqw) w1 (mem_of_getElem?_aux hs2) rfl
  · rcases hc2 with ⟨ht1, ht2⟩ | ⟨q, hq, hqs, hqw⟩
    · exact hdisj w1 (mem_of_getElem?_aux hpw) w1 (mem_of_getElem?_aux ht2) rfl
    · have hpq : p = q := nodup_getElem?_inj hrefnd hpw hqw
      subst hpq
      rw [hps] at hqs
      have : s = t := by injection hqs
      omega

lemma take_drop_flatten_sublist {α : Type} (ll : List (List α)) {i : Nat}
    (hi : i < ll.length) :
    ((ll.take i).flatten ++ (ll.drop (i + 1)).flatten).Sublist ll.flatten := by
  have hsplit : ll.flatten = (ll.take i).flatten ++ (ll[i] ++ (ll.drop (i + 1)).flatten) := by
    conv_lhs => rw [← List.take_append_drop i ll]
    rw [List.flatten_append, List.drop_eq_getElem_cons hi, List.flatten_cons]
  rw [hsplit]
  exact (List.sublist_append_right ll[i] _).append_left _

lemma uref_vid_bounds (jaxprs : List Jaxpr) (all_consts : List (List Const)) :
    ∀ v ∈ unusedRefConstVars jaxprs all_consts,
      maxVidAll jaxprs + 1 ≤ v.vid
        ∧ v.vid < maxVidAll jaxprs + 1 + numCanonicalRefs all_consts := by
  intro v hv
  have h := mem_freshVarsFrom_vid hv
  have hlen : (dedupResult all_consts).acc.canonical_ref_avals.length
      = numCanonicalRefs all_consts := by
    rw [(dedupResult_spec all_consts).2.1.2.2]
    simp [numCanonicalRefs]
  omega

lemma ucv_flatten_vid_lo (jaxprs : List Jaxpr) (all_consts : List (List Const)) :
    ∀ v ∈ (unusedConstVars jaxprs all_consts).flatten,
      maxVidAll jaxprs + 1 + numCanonicalRefs all_consts ≤ v.vid := by
  intro v hv
  rw [unusedConstVars, freshVarsNested_flatten] at hv
  have h := mem_freshVarsFrom_vid hv
  have hlen : (dedupResult all_consts).acc.canonical_ref_avals.length
      = numCanonicalRefs all_consts := by
    rw [(dedupResult_spec all_consts).2.1.2.2]
    simp [numCanonicalRefs]
  omega

lemma ucv_flatten_nodup (jaxprs : List Jaxpr) (all_consts : List (List Const)) :
    (unusedConstVars jaxprs all_consts).flatten.Nodup := by
  rw [unusedConstVars, freshVarsNested_flatten]
  exact freshVarsFrom_nodup _ _

lemma uref_nodup (jaxprs : List Jaxpr) (all_consts : List (List Const)) :
    (unusedRefConstVars jaxprs all_consts).Nodup :=
  freshVarsFrom_nodup _ _

lemma ucv_length (jaxprs : List Jaxpr) (all_consts : List (List Const)) :
    (unusedConstVars jaxprs all_consts).length = all_consts.length := by
  rw [unusedConstVars, freshVarsNested_length, (dedupResult_spec _).2.2.2.1]
  simp

lemma sections_nodup (maxV nc : Nat) (W pre own suf refvars : List Var)
    (n1 : W.Nodup) (nps : (pre ++ suf).Nodup) (n4 : own.Nodup)
    (hWdec : ∀ a ∈ W, a ∈ refvars ∨ (maxV + 1 ≤ a.vid ∧ a.vid < maxV + 1 + nc))
    (hrefvid : ∀ a ∈ refvars, a.vid ≤ maxV)
    (hownvid : ∀ a ∈ own, a.vid ≤ maxV)
    (hrefown : ∀ a ∈ refvars, a ∉ own)
    (hpsvid : ∀ a ∈ pre ++ suf, maxV + 1 + nc ≤ a.vid) :
    (W ++ pre ++ own ++ suf).Nodup := by
  obtain ⟨n2, n3, d23⟩ := List.nodup_append.mp nps
  have hWvid : ∀ a ∈ W, a.vid < maxV + 1 + nc := by
    intro a ha
    rcases hWdec a ha with hr | hb
    · have := hrefvid a hr
      omega
    · omega
  have dWp : W.Disjoint pre := by
    intro a haW hap
    have h2 := hpsvid a (List.mem_append.mpr (Or.inl hap))
    have h1 := hWvid a haW
    omega
  have dWo : W.Disjoint own := by
    intro a haW hao
    rcases hWdec a haW with hr | hb
    · exact hrefown a hr hao
    · have := hownvid a hao
      omega
  have dWs : W.Disjoint suf := by
    intro a haW has
    have h2 := hpsvid a (List.mem_append.mpr (Or.inr has))
    have h1 := hWvid a haW
    omega
  have dpo : pre.Disjoint own := by
    intro a hap hao
    have h1 := hpsvid a (List.mem_append.mpr (Or.inl hap))
    have h2 := hownvid a hao
    omega
  have dos : own.Disjoint suf := by
    intro a hao has
    have h1 := hpsvid a (List.mem_append.mpr (Or.inr has))
    have h2 := hownvid a hao
    omega
  refine List.nodup_append.mpr ⟨List.nodup_append.mpr
    ⟨List.nodup_append.mpr ⟨n1, n2, dWp⟩, n4, ?_⟩, n3, ?_⟩
  · intro a ha hao
    rcases List.mem_append.mp ha with h1 | h2
    · exact dWo h1 hao
    · exact dpo h2 hao
  · intro a ha has
    rcases List.mem_append.mp ha with h1 | h2
    · rcases List.mem_append.mp h1 with h3 | h4
      · exact dWs h3 has
      · exact d23 h4 has
    · exact dos h2 has

lemma padded_constvars_nodup
    (mkEff : List Var → List Var → List Atom → List Eqn → Effects)
    (jaxprs : List Jaxpr) (all_consts : List (List Const))
    (hlen : jaxprs.length = all_consts.length) {i : Nat} (hi : i < jaxprs.length)
    (hcorr : Corresponds (jaxprs.getD i default) (all_consts.getD i []))
    (hnodup : ((refConsts (all_consts.getD i [])).map Const.cid).Nodup)
    (hcv : (jaxprs.getD i default).constvars.Nodup) :
    ((paddedJaxprs mkEff jaxprs all_consts).getD i default).constvars.Nodup := by
  have hi2 : i < all_consts.length := by omega
  obtain ⟨hsec, _, _, _, _, _⟩ :=
    pad_branch_spec mkEff jaxprs all_consts hlen hi hcorr hnodup
  rw [hsec]
  have hjmem : jaxprs.getD i default ∈ jaxprs := getD_mem hi default
  have hlens : ((refConsts (all_consts.getD i [])).map
        (fun c => canonIdx (dedupResult all_consts).acc.canonical_refs c.cid)).length
      = ((jaxprs.getD i default).constvars.filter fun v => v.aval.isRef).length := by
    rw [List.length_map, (corresponds_filter hcorr).1]
  have hrefvid : ∀ a ∈ (jaxprs.getD i default).constvars.filter
      fun v => v.aval.isRef, a.vid ≤ maxVidAll jaxprs := by
    intro a ha
    exact vid_le_maxVidAll hjmem
      (constvars_subset_allVars _ _ (List.mem_filter.mp ha).1)
  apply sections_nodup (maxVidAll jaxprs) (numCanonicalRefs all_consts) _ _ _ _
    ((jaxprs.getD i default).constvars.filter fun v => v.aval.isRef)
  · refine writeCanonical_zip_nodup _ _ _ hlens (idxs_nodup all_consts hi2 hnodup)
      (idxs_bound jaxprs all_consts hi2) (uref_nodup jaxprs all_consts)
      (hcv.filter _) ?_
    intro v hv w hw heq
    have h1 := hrefvid v hv
    have h2 := (uref_vid_bounds jaxprs all_consts w hw).1
    rw [heq] at h1
    omega
  · refine (ucv_flatten_nodup jaxprs all_consts).sublist
      (take_drop_flatten_sublist _ ?_)
    rw [ucv_length]
    omega
  · exact hcv.filter _
  · intro a ha
    rcases writeCanonical_mem_subset _ _ a ha with h1 | h2
    · exact Or.inr (uref_vid_bounds jaxprs all_consts a h1)
    · left
      have hmsnd : (((refConsts (all_consts.getD i [])).map
            (fun c => canonIdx (dedupResult all_consts).acc.canonical_refs c.cid)).zip
          ((jaxprs.getD i default).constvars.filter fun v => v.aval.isRef)).map Prod.snd
          = (jaxprs.getD i default).constvars.filter fun v => v.aval.isRef :=
        List.map_snd_zip _ _ (le_of_eq hlens.symm)
      rw [hmsnd] at h2
      exact h2
  · exact hrefvid
  · intro a ha
    exact vid_le_maxVidAll hjmem
      (constvars_subset_allVars _ _ (List.mem_filter.mp ha).1)
  · intro a ha hao
    have h1 := (List.mem_filter.mp ha).2
    have h2 := (List.mem_filter.mp hao).2
    rw [h1] at h2
    cases h2
  · intro a ha
    apply ucv_flatten_vid_lo
    rcases List.mem_append.mp ha with h1 | h2
    · rcases List.mem_flatten.mp h1 with ⟨l, hl, hal⟩
      exact List.mem_flatten.mpr ⟨l, List.take_subset _ _ hl, hal⟩
    · rcases List.mem_flatten.mp h2 with ⟨l, hl, hal⟩
      exact List.mem_flatten.mpr ⟨l, List.drop_subset _ _ hl, hal⟩

lemma padded_fields_eq (mkEff : List Var → List Var → List Atom → List Eqn → Effects)
    (jaxprs : List Jaxpr) (all_consts : List (List Const)) {i : Nat}
    (hi : i < jaxprs.length) :
    ((paddedJaxprs mkEff jaxprs all_consts).getD i default).invars
        = (jaxprs.getD i default).invars
    ∧ ((paddedJaxprs mkEff jaxprs all_consts).getD i default).eqns
        = (jaxprs.getD i default).eqns
    ∧ ((paddedJaxprs mkEff jaxprs all_consts).getD i default).outvars
        = (jaxprs.getD i default).outvars := by
  rw [paddedJaxprs_getD mkEff jaxprs all_consts hi]
  exact ⟨rfl, rfl, rfl⟩

lemma padded_binders_nodup
    (mkEff : List Var → List Var → List Atom → List Eqn → Effects)
    (jaxprs : List Jaxpr) (all_consts : List (List Const))
    (hlen : jaxprs.length = all_consts.length) {i : Nat} (hi : i < jaxprs.length)
    (hcorr : Corresponds (jaxprs.getD i default) (all_consts.getD i []))
    (hnodup : ((refConsts (all_consts.getD i [])).map Const.cid).Nodup)
    (hbind : (jaxprs.getD i default).binders.Nodup) :
    ((paddedJaxprs mkEff jaxprs all_consts).getD i default).binders.Nodup := by
  have hjmem : jaxprs.getD i default ∈ jaxprs := getD_mem hi default
  obtain ⟨hinv, heqs, _⟩ := padded_fields_eq mkEff jaxprs all_consts hi
  have hsplit : ((jaxprs.getD i default).constvars ++
      ((jaxprs.getD i default).invars ++
        (jaxprs.getD i default).eqns.flatMap Eqn.outvars)).Nodup := by
    have hb := hbind
    rw [Jaxpr.binders, List.append_assoc] at hb
    exact hb
  obtain ⟨hcv, hrest, hdisjcr⟩ := List.nodup_append.mp hsplit
  rw [Jaxpr.binders, List.append_assoc, hinv, heqs]
  refine List.nodup_append.mpr
    ⟨padded_constvars_nodup mkEff jaxprs all_consts hlen hi hcorr hnodup hcv,
      hrest, ?_⟩
  intro a ha har
  have harest : a.vid ≤ maxVidAll jaxprs := by
    rcases List.mem_append.mp har with h1 | h2
    · exact vid_le_maxVidAll hjmem (invars_subset_allVars _ _ h1)
    · exact vid_le_maxVidAll hjmem (eqn_outvars_subset_allVars _ _ h2)
  obtain ⟨hsec, _, _, _, _, _⟩ :=
    pad_branch_spec mkEff jaxprs all_consts hlen hi hcorr hnodup
  rw [hsec] at ha
  have hfreshcontra : ∀ b : Var, maxVidAll jaxprs + 1 ≤ b.vid → a = b → False := by
    intro b hb heq
    rw [heq] at harest
    omega
  have hincv : a ∈ (jaxprs.getD i default).constvars → False := fun hx =>
    hdisjcr hx har
  rcases List.mem_append.mp ha with h1 | hsuf
  · rcases List.mem_append.mp h1 with h2 | hown
    · rcases List.mem_append.mp h2 with hW | hpre
      · rcases writeCanonical_mem_subset _ _ a hW with hu | hr
        · exact hfreshcontra a (uref_vid_bounds jaxprs all_consts a hu).1 rfl
        · have hlens : ((refConsts (all_consts.getD i [])).map
              (fun c => canonIdx (dedupResult all_consts).acc.canonical_refs c.cid)).length
              = ((jaxprs.getD i default).constvars.filter fun v => v.aval.isRef).length := by
            rw [List.length_map, (corresponds_filter hcorr).1]
          rw [List.map_snd_zip _ _ (le_of_eq hlens.symm)] at hr
          exact hincv (List.mem_filter.mp hr).1
      · refine hfreshcontra a ?_ rfl
        have := ucv_flatten_vid_lo jaxprs all_consts a ?_
        · omega
        · rcases List.mem_flatten.mp hpre with ⟨l, hl, hal⟩
          exact List.mem_flatten.mpr ⟨l, List.take_subset _ _ hl, hal⟩
    · exact hincv (List.mem_filter.mp hown).1
  · refine hfreshcontra a ?_ rfl
    have := ucv_flatten_vid_lo jaxprs all_consts a ?_
    · omega
    · rcases List.mem_flatten.mp hsuf with ⟨l, hl, hal⟩
      exact List.mem_flatten.mpr ⟨l, List.drop_subset _ _ hl, hal⟩

lemma padded_noFreeVars
    (mkEff : List Var → List Var → List Atom → List Eqn → Effects)
    (jaxprs : List Jaxpr) (all_consts : List (List Const))
    (hlen : jaxprs.length = all_consts.length) {i : Nat} (hi : i < jaxprs.length)
    (hcorr : Corresponds (jaxprs.getD i default) (all_consts.getD i []))
    (hnodup : ((refConsts (all_consts.getD i [])).map Const.cid).Nodup)
    (hwf : (jaxprs.getD i default).noFreeVars = true) :
    ((paddedJaxprs mkEff jaxprs all_consts).getD i default).noFreeVars = true := by
  obtain ⟨hinv, heqs, houts⟩ := padded_fields_eq mkEff jaxprs all_consts hi
  have hsub := (pad_branch_spec mkEff jaxprs all_consts hlen hi hcorr hnodup).2.2.2.2.2
  rw [Jaxpr.noFreeVars] at hwf ⊢
  rw [hinv, heqs, houts]
  refine wfFrom_mono ?_ hwf
  intro v hv
  rcases List.mem_append.mp hv with h1 | h2
  · exact List.mem_append.mpr (Or.inl (hsub v h1))
  · exact List.mem_append.mpr (Or.inr h2)

/-- Claim C4: every program returned by the branch unifier is a closed program
with an empty consts list and an empty constvars list (all former captured
constants became ordinary inputs), and it has no free variables: every
variable its equations and outputs reference is bound by its invars or a
prior equation's outputs. -/
theorem unifier_closed_programs_self_contained
    (mkEff : List Var → List Var → List Atom → List Eqn → Effects)
    (jaxprs : List Jaxpr) (all_consts : List (List Const))
    (hlen : jaxprs.length = all_consts.length)
    (hcorr : ∀ i, i < jaxprs.length →
      Corresponds (jaxprs.getD i default) (all_consts.getD i []))
    (hnodup : ∀ i, i < jaxprs.length →
      ((refConsts (all_consts.getD i [])).map Const.cid).Nodup)
    (hwf : ∀ j ∈ jaxprs, j.noFreeVars = true) :
    ∀ cj ∈ (initial_style_jaxprs_with_common_consts mkEff jaxprs all_consts).1,
      cj.consts = [] ∧ cj.jaxpr.constvars = [] ∧ cj.jaxpr.noFreeVars = true := by
  intro cj hcj
  simp only [initial_style_jaxprs_with_common_consts, List.mem_map] at hcj
  obtain ⟨jp, hjp, rfl⟩ := hcj
  refine ⟨rfl, rfl, ?_⟩
  simp only [paddedJaxprs, List.mem_map] at hjp
  obtain ⟨i, hirange, rfl⟩ := hjp
  have hi : i < jaxprs.length := List.mem_range.mp hirange
  have hconv : ∀ j : Jaxpr,
      (convert_constvars_jaxpr j).noFreeVars = j.noFreeVars := fun _ => rfl
  rw [hconv, ← paddedJaxprs_getD mkEff jaxprs all_consts hi]
  exact padded_noFreeVars mkEff jaxprs all_consts hlen hi (hcorr i hi)
    (hnodup i hi) (hwf _ (getD_mem hi default))

/-- Witness for C4: a concrete two-branch unification (a shared ref plus plain
constants, one branch with an equation) whose first returned program is closed
and fully bound. -/
theorem unifier_closed_programs_self_contained_witness :
    ((initial_style_jaxprs_with_common_consts (fun cs _ _ _ => cs.map Var.vid)
        [⟨[⟨10, .ref 0⟩, ⟨11, .shaped 0 false⟩], [⟨14, .shaped 2 false⟩],
            [⟨0, [.var ⟨10, .ref 0⟩, .var ⟨11, .shaped 0 false⟩,
              .var ⟨14, .shaped 2 false⟩], [⟨15, .shaped 3 false⟩]⟩],
            [.var ⟨15, .shaped 3 false⟩, .lit 7], []⟩,
          ⟨[⟨12, .ref 0⟩], [⟨16, .shaped 2 false⟩], [], [.var ⟨12, .ref 0⟩], []⟩]
        [[⟨1, true, .ref 0⟩, ⟨2, false, .shaped 0 false⟩],
          [⟨1, true, .ref 0⟩]]).1.getD 0 ⟨default, []⟩).jaxpr.noFreeVars = true :=
  (unifier_closed_programs_self_contained (fun cs _ _ _ => cs.map Var.vid)
    [⟨[⟨10, .ref 0⟩, ⟨11, .shaped 0 false⟩], [⟨14, .shaped 2 false⟩],
        [⟨0, [.var ⟨10, .ref 0⟩, .var ⟨11, .shaped 0 false⟩,
          .var ⟨14, .shaped 2 false⟩], [⟨15, .shaped 3 false⟩]⟩],
        [.var ⟨15, .shaped 3 false⟩, .lit 7], []⟩,
      ⟨[⟨12, .ref 0⟩], [⟨16, .shaped 2 false⟩], [], [.var ⟨12, .ref 0⟩], []⟩]
    [[⟨1, true, .ref 0⟩, ⟨2, false, .shaped 0 false⟩], [⟨1, true, .ref 0⟩]]
    (by decide)
    (by
      intro i hi
      have h2 : i < 2 := by simpa using hi
      interval_cases i <;> decide)
    (by
      intro i hi
      have h2 : i < 2 := by simpa using hi
      interval_cases i <;> decide)
    (by decide) _ (by decide)).2.2

/-- Claim C9: for a branch whose captured ref identities are pairwise distinct,
the padding rewrite keeps every one of the branch's original constvars exactly
once in the padded constvars list, preserves the single-static-assignment
invariant (no binder bound twice), and leaves no referenced variable unbound. -/
theorem padding_preserves_each_constvar
    (mkEff : List Var → List Var → List Atom → List Eqn → Effects)
    (jaxprs : List Jaxpr) (all_consts : List (List Const))
    (hlen : jaxprs.length = all_consts.length) {i : Nat} (hi : i < jaxprs.length)
    (hcorr : Corresponds (jaxprs.getD i default) (all_consts.getD i []))
    (hnodup : ((refConsts (all_consts.getD i [])).map Const.cid).Nodup) :
    ((jaxprs.getD i default).constvars.Nodup →
      ∀ v ∈ (jaxprs.getD i default).constvars,
        ((paddedJaxprs mkEff jaxprs all_consts).getD i default).constvars.count v = 1)
    ∧ ((jaxprs.getD i default).binders.Nodup →
        ((paddedJaxprs mkEff jaxprs all_consts).getD i default).binders.Nodup)
    ∧ ((jaxprs.getD i default).noFreeVars = true →
        ((paddedJaxprs mkEff jaxprs all_consts).getD i default).noFreeVars = true) := by
  refine ⟨?_, padded_binders_nodup mkEff jaxprs all_consts hlen hi hcorr hnodup,
    padded_noFreeVars mkEff jaxprs all_consts hlen hi hcorr hnodup⟩
  intro hcv v hv
  have hmem :=
    (pad_branch_spec mkEff jaxprs all_consts hlen hi hcorr hnodup).2.2.2.2.2 v hv
  have hnd := padded_constvars_nodup mkEff jaxprs all_consts hlen hi hcorr hnodup hcv
  exact List.count_eq_one_of_mem hnd hmem

/-- Witness for C9 at the same concrete two-branch instance: the first
branch's ref constvar appears exactly once in its padded constvars. -/
theorem padding_preserves_each_constvar_witness :
    ((paddedJaxprs (fun cs _ _ _ => cs.map Var.vid)
        [⟨[⟨10, .ref 0⟩, ⟨11, .shaped 0 false⟩], [⟨14, .shaped 2 false⟩],
            [⟨0, [.var ⟨10, .ref 0⟩, .var ⟨11, .shaped 0 false⟩,
              .var ⟨14, .shaped 2 false⟩], [⟨15, .shaped 3 false⟩]⟩],
            [.var ⟨15, .shaped 3 false⟩, .lit 7], []⟩,
          ⟨[⟨12, .ref 0⟩], [⟨16, .shaped 2 false⟩], [], [.var ⟨12, .ref 0⟩], []⟩]
        [[⟨1, true, .ref 0⟩, ⟨2, false, .shaped 0 false⟩],
          [⟨1, true, .ref 0⟩]]).getD 0 default).constvars.count ⟨10, .ref 0⟩ = 1 :=
  (padding_preserves_each_constvar (fun cs _ _ _ => cs.map Var.vid)
    [⟨[⟨10, .ref 0⟩, ⟨11, .shaped 0 false⟩], [⟨14, .shaped 2 false⟩],
        [⟨0, [.var ⟨10, .ref 0⟩, .var ⟨11, .shaped 0 false⟩,
          .var ⟨14, .shaped 2 false⟩], [⟨15, .shaped 3 false⟩]⟩],
        [.var ⟨15, .shaped 3 false⟩, .lit 7], []⟩,
      ⟨[⟨12, .ref 0⟩], [⟨16, .shaped 2 false⟩], [], [.var ⟨12, .ref 0⟩], []⟩]
    [[⟨1, true, .ref 0⟩, ⟨2, false, .shaped 0 false⟩], [⟨1, true, .ref 0⟩]]
    (by decide) (i := 0) (by decide) (by decide) (by decide)).1
    (by decide) ⟨10, .ref 0⟩ (by decide)

end JaxControlFlow
